import Mathlib

/-!
Verification of the schema-and-sample-driven code generator (cmd/generate).

Shallow embedding notes:
* JSON values are modelled by the inductive `Json`; JSON numbers are modelled
  as exact rationals (the Go source decodes them into float64; every concrete
  number appearing in the claims is exactly representable, and the int64
  round-trip test `val == float64(int64(val))` is modelled as "is a
  mathematical integer in the int64 range", which is the behaviour of the
  source on every mainstream platform).
* Go maps (`structs map[string]string`, `usedNames map[string]int`,
  `endpointResponseType map[string]string`) are modelled as association
  lists with replace-on-insert, which is exactly the observable behaviour
  of a Go map (unordered, unique keys, last write wins).
* Go strings are modelled by `String`; `sort.Strings` sorts byte-wise
  lexicographically, which on UTF-8 agrees with the codepoint-wise
  lexicographic order of `String` used here, and is modelled by
  `List.insertionSort` (any correct sort of a list of strings produces the
  same output, because equal strings are identical).
* The recursion of `jsonToGoType` is made structural with an explicit fuel
  parameter (first argument); fuel `0` is an artificial out-of-fuel result
  that is never reached when the fuel exceeds the nesting depth of the
  value, as in all theorems below.
-/

/-- JSON values as decoded by encoding/json into `interface{}`:
null, bool, float64 (modelled as an exact rational), string, array, object. -/
inductive Json where
  | null : Json
  | bool (b : Bool) : Json
  | num (q : ℚ) : Json
  | str (s : String) : Json
  | arr (xs : List Json) : Json
  | obj (entries : List (String × Json)) : Json

/-- The record table `structs map[string]string` (struct name to struct
definition source text), as an association list with unique keys. -/
abbrev Tbl : Type := List (String × String)

/-- Go map read: first (unique) binding, `none` when absent. -/
def lookupT (tbl : Tbl) (n : String) : Option String :=
  match tbl with
  | [] => none
  | (m, d) :: t => if m = n then some d else lookupT t n

/-- Go map write `structs[name] = def`: replace the existing binding or append. -/
def insertTbl (n d : String) : Tbl → Tbl
  | [] => [(n, d)]
  | (m, e) :: t => if m = n then (n, d) :: t else (m, e) :: insertTbl n d t

/-- Keys of the record table. -/
def keysT (tbl : Tbl) : List String := tbl.map Prod.fst

/-- The `usedNames map[string]int` threaded through one record's field loop. -/
abbrev UsedMap : Type := List (String × Nat)

/-- Go map read on `usedNames`. -/
def lookupU (m : UsedMap) (n : String) : Option Nat :=
  match m with
  | [] => none
  | (k, c) :: t => if k = n then some c else lookupU t n

/-- Go map write on `usedNames`. -/
def setU (n : String) (c : Nat) : UsedMap → UsedMap
  | [] => [(n, c)]
  | (k, e) :: t => if k = n then (n, c) :: t else (k, e) :: setU n c t

/-- Lookup of `obj[k]` in a JSON object (total: the source only looks up keys
that are present, so the `.null` default is never reached). -/
def lookupJD (entries : List (String × Json)) (k : String) : Json :=
  match entries with
  | [] => Json.null
  | (m, v) :: t => if m = k then v else lookupJD t k

/-- One character of the character class `[a-zA-Z0-9]` of the regexp
`nonAlpha`; everything else is a separator. -/
def isAlnumCh (c : Char) : Bool :=
  ('a' ≤ c && c ≤ 'z') || ('A' ≤ c && c ≤ 'Z') || ('0' ≤ c && c ≤ '9')

/-- One character of `[a-z]`. -/
def isLowerCh (c : Char) : Bool := 'a' ≤ c && c ≤ 'z'

/-- One character of `[A-Z]`. -/
def isUpperCh (c : Char) : Bool := 'A' ≤ c && c ≤ 'Z'

/-- One character of `[0-9]`. -/
def isDigitCh (c : Char) : Bool := '0' ≤ c && c ≤ '9'

/-- One step of `nonAlpha.Split`: an alphanumeric character is prepended to
the current (head) segment, a separator opens a new segment.  Compared to
Go's split on the regexp `[^a-zA-Z0-9]+`, runs of adjacent separators produce
extra empty segments here; both callers in the source skip empty segments, so
this difference is unobservable (only the position of the first segment
matters for `toLowerCamel`, and it is empty here exactly when it is empty in
Go, namely when the input starts with a separator). -/
def splitStep (c : Char) (acc : List (List Char)) : List (List Char) :=
  if isAlnumCh c then
    match acc with
    | [] => [[c]]
    | r :: rs => (c :: r) :: rs
  else [] :: acc

/-- The split `nonAlpha.Split(s, -1)` of the naming engine. -/
def splitNonAlnum (s : List Char) : List (List Char) :=
  s.foldr splitStep [[]]

/-- The Go `strings.ToUpper` on a segment.  Segments produced by
`splitNonAlnum` are ASCII alphanumeric, on which `Char.toUpper` agrees with
Go's Unicode-aware upper-casing. -/
def goToUpper (p : List Char) : List Char := p.map Char.toUpper

/-- Upper-case the first rune of a segment (`runes[0] = unicode.ToUpper`). -/
def upperFirst : List Char → List Char
  | [] => []
  | c :: cs => c.toUpper :: cs

/-- Lower-case the first byte of a segment
(`strings.ToLower(p[:1]) + p[1:]`; segments are ASCII). -/
def lowerFirst : List Char → List Char
  | [] => []
  | c :: cs => c.toLower :: cs

/-- Per-segment transformation of `toExportedName`: short all-caps segments
are preserved as acronyms, otherwise the first rune is upper-cased. -/
def expPart (p : List Char) : List Char :=
  if p.length ≤ 3 && goToUpper p == p then goToUpper p else upperFirst p

/-- The loop body of `toExportedName`: skip empty segments, transform and
concatenate the rest. -/
def expConcat : List (List Char) → List Char
  | [] => []
  | p :: ps => (if p = [] then [] else expPart p) ++ expConcat ps

/-- The naming engine's `toExportedName`, on rune lists. -/
def toExportedNameL (s : List Char) : List Char :=
  let r := expConcat (splitNonAlnum s)
  if r = [] then ['X'] else r

/-- The naming engine's `toExportedName`. -/
def toExportedName (s : String) : String :=
  String.mk (toExportedNameL s.data)

/-- The eight Go keywords handled by the switch at the end of `toLowerCamel`. -/
def kw8 : List String :=
  ["type", "func", "map", "range", "var", "const", "return", "default"]

/-- The loop body of `toLowerCamel`: the segment at index 0 has its first
byte lower-cased, later segments their first rune upper-cased; empty
segments are skipped (without resetting the index). -/
def lcParts : Nat → List (List Char) → List Char
  | _, [] => []
  | i, p :: ps =>
      (if p = [] then [] else if i = 0 then lowerFirst p else upperFirst p)
        ++ lcParts (i + 1) ps

/-- The result of `toLowerCamel` before the keyword switch. -/
def toLowerCamelCore (s : String) : String :=
  String.mk (lcParts 0 (splitNonAlnum s.data))

/-- The naming engine's `toLowerCamel`, keyword switch included. -/
def toLowerCamel (s : String) : String :=
  let r := toLowerCamelCore s
  if r ∈ kw8 then r ++ "Param" else r

/-- The truncation `int64(val)` of an exact rational (truncated division of
numerator by denominator, i.e. rounding toward zero). -/
def ratTrunc (q : ℚ) : ℤ := q.num.tdiv q.den

/-- The integer test `val == float64(int64(val))` of `jsonToGoType` on the
exact-rational model of a JSON number: the value is a mathematical integer
that lies in the int64 range.  (Outside the int64 range the Go conversion
does not round-trip on any mainstream platform, so such values classify as
floating-point.) -/
def isInt64Rat (q : ℚ) : Bool :=
  q.den == 1 && decide (-(2 ^ 63) ≤ q.num) && decide (q.num < 2 ^ 63)

/-- Lexicographic comparison of rune sequences by codepoint, the order Go
uses on strings (byte-wise comparison of UTF-8 agrees with codepoint-wise
comparison). -/
def ltCharsB : List Char → List Char → Bool
  | [], [] => false
  | [], _ :: _ => true
  | _ :: _, [] => false
  | a :: as, b :: bs =>
    if a.toNat < b.toNat then true
    else if b.toNat < a.toNat then false
    else ltCharsB as bs

/-- The Go string comparison `a < b`. -/
def strLtB (a b : String) : Bool := ltCharsB a.data b.data

/-- Byte-wise lexicographic `sort.Strings`, modelled by insertion sort (all
correct sorts of a string list agree, because equal strings are identical). -/
def sortStrings (l : List String) : List String :=
  List.insertionSort (fun a b : String => strLtB b a = false) l

/-- The all-numeric-keys test of `jsonObjectToStruct` (the double loop with
early exit sets `allNumeric` to false exactly when some key has some
non-digit rune). -/
def allNumericB (keys : List String) : Bool :=
  keys.all (fun k => k.data.all isDigitCh)

/-- The digit guard of the field loop: `fieldName[0]` is a digit byte
(field names are ASCII alphanumeric, so byte = rune). -/
def digitStart (s : String) : Bool :=
  match s.data with
  | [] => false
  | c :: _ => isDigitCh c

/-- One emitted field line
`fmt.Sprintf("\t%s %s %s", fieldName, fieldType, jsonTag)` with
`jsonTag = "\x60json:\"k\"\x60"`. -/
def fieldLine (fn ft k : String) : String :=
  "\t" ++ fn ++ " " ++ ft ++ " " ++ "\x60json:\"" ++ k ++ "\"\x60"

/-- The struct definition string
`fmt.Sprintf("type %s struct {\n%s\n}", name, strings.Join(fields, "\n"))`. -/
def mkStructDef (name : String) (fields : List (String × String × String)) : String :=
  "type " ++ name ++ " struct \x7b\n"
    ++ String.intercalate "\n" (fields.map (fun f => fieldLine f.1 f.2.1 f.2.2))
    ++ "\n\x7d"

/-- The type of the recursive call of the inference engine (one nesting
level deeper): candidate name, JSON value, record table in; Go type string
and updated table out. -/
def InferRec : Type := String → Json → Tbl → String × Tbl

/-- The field-name computation of one iteration of the field loop:
normalize the key, guard a leading digit with `"N"`, and on a collision
with an already-used base name suffix the incremented counter — without
recording the suffixed name itself (see the C5 analysis).  Returns the
field name and the updated `usedNames`. -/
def fieldNameStep (used : UsedMap) (k : String) : String × UsedMap :=
  let fn0 := toExportedName k
  let fn1 := if digitStart fn0 then "N" ++ fn0 else fn0
  match lookupU used fn1 with
  | some c => (fn1 ++ toString (c + 1), setU fn1 (c + 1) used)
  | none => (fn1, setU fn1 1 used)

/-- The field loop of `jsonObjectToStruct`, parameterized by the recursive
inference call `rec`: for each key in sorted order, normalize it, guard a
leading digit with `"N"`, suffix a collision with the incremented
per-base-name counter (the suffixed name itself is not recorded in
`usedNames` — see the C5 analysis), infer the field type under the candidate
name `name ++ fieldName`, and emit the (name, type, original key) triple. -/
def buildFields (rec : InferRec) (name : String) (entries : List (String × Json)) :
    List String → UsedMap → Tbl → List (String × String × String) × Tbl
  | [], _, tbl => ([], tbl)
  | k :: ks, used, tbl =>
    let step := fieldNameStep used k
    let r := rec (name ++ step.1) (lookupJD entries k) tbl
    let rest := buildFields rec name entries ks step.2 r.2
    ((step.1, r.1, k) :: rest.1, rest.2)

/-- The object case `jsonObjectToStruct(name, obj, structs)`, parameterized
by the recursive inference call `rec`: empty objects are untyped maps;
objects whose (sorted) keys are all numeric and number more than one become
`map[string]` of the type of the first value in sorted key order; otherwise
a struct is built, registered under `name` (last write wins), and referenced
by name. -/
def jsonObjectToStruct (rec : InferRec) (name : String) :
    List (String × Json) → Tbl → String × Tbl
  | [], tbl => ("map[string]interface\x7b\x7d", tbl)
  | e :: es, tbl =>
    let entries := e :: es
    let keys := sortStrings (entries.map Prod.fst)
    if allNumericB keys && decide (1 < keys.length) then
      let r := rec (name ++ "Item") (lookupJD entries keys.headI) tbl
      ("map[string]" ++ r.1, r.2)
    else
      let r := buildFields rec name entries keys [] tbl
      (name, insertTbl name (mkStructDef name r.1) r.2)

/-- The body of `jsonToGoType(name, v, structs)`, parameterized by the
recursive call `rec` used for array elements and object members. -/
def inferGoF (rec : InferRec) (name : String) (v : Json) (tbl : Tbl) : String × Tbl :=
  match v with
  | Json.null => ("interface\x7b\x7d", tbl)
  | Json.bool _ => ("bool", tbl)
  | Json.num q => (if isInt64Rat q then "int64" else "float64", tbl)
  | Json.str _ => ("string", tbl)
  | Json.arr [] => ("[]interface\x7b\x7d", tbl)
  | Json.arr (x :: _) =>
      let r := rec (name ++ "Item") x tbl
      ("[]" ++ r.1, r.2)
  | Json.obj entries => jsonObjectToStruct rec name entries tbl

/-- The type-inference engine `jsonToGoType(name, v, structs)`, with explicit
fuel (strictly larger than the nesting depth of `v` in all uses below; the
out-of-fuel result is never reached then) and the record table threaded
through as state. -/
def inferGo : Nat → String → Json → Tbl → String × Tbl
  | 0 => fun _ _ tbl => ("interface\x7b\x7d", tbl)
  | Nat.succ f => inferGoF (inferGo f)

/-- The type of the recursive call of `regNames`. -/
def RegRec : Type := String → Json → List String

/-- The candidate names registered by the field loop, mirroring
`buildFields` (same field-name computation, no table). -/
def regFields (rec : RegRec) (name : String) (entries : List (String × Json)) :
    List String → UsedMap → List String
  | [], _ => []
  | k :: ks, used =>
    let step := fieldNameStep used k
    rec (name ++ step.1) (lookupJD entries k) ++ regFields rec name entries ks step.2

/-- The candidate names registered by the object case, mirroring
`jsonObjectToStruct`: the map branch registers only what the element
inference registers; the struct branch registers the nested names and
`name` itself. -/
def regObj (rec : RegRec) (name : String) : List (String × Json) → List String
  | [] => []
  | e :: es =>
    let entries := e :: es
    let keys := sortStrings (entries.map Prod.fst)
    if allNumericB keys && decide (1 < keys.length) then
      rec (name ++ "Item") (lookupJD entries keys.headI)
    else
      regFields rec name entries keys [] ++ [name]

/-- The body of `regNames`, mirroring `inferGoF`. -/
def regNamesF (rec : RegRec) (name : String) (v : Json) : List String :=
  match v with
  | Json.arr (x :: _) => rec (name ++ "Item") x
  | Json.obj entries => regObj rec name entries
  | _ => []

/-- The set (list) of candidate names under which `inferGo` with the same
fuel, name and value registers a record in the table.  Used to state what
"a later endpoint produces the same candidate name" means. -/
def regNames : Nat → String → Json → List String
  | 0 => fun _ _ => []
  | Nat.succ f => regNamesF (regNames f)

/-- A declared parameter of a schema operation (the `type` field is called
`Ptype` here because `Type` is reserved in Lean). -/
structure SwaggerParam where
  In : String
  Name : String
  Ptype : String
deriving DecidableEq

/-- The endpoint descriptor built by the main loop. -/
structure Endpoint where
  Path : String
  Method : String
  Params : List SwaggerParam
  Group : String
  FuncName : String
  HasPathP : Bool
deriving DecidableEq

/-- The Go `strings.ToUpper` on a method name (methods are ASCII). -/
def goUpperStr (s : String) : String := String.mk (s.data.map Char.toUpper)

/-- Drop everything up to and including the first `')'`
(the non-greedy match of `\(.*?\)` runs to the first closing paren;
schema paths contain no newlines, so the `.`-excludes-newline subtlety of
the regexp is immaterial). -/
def afterClose : List Char → Option (List Char)
  | [] => none
  | c :: t => if c = ')' then some t else afterClose t

/-- `regexPathPart.ReplaceAllString(path, "")`: delete every non-greedy
`(...)` group, scanning left to right.  The fuel (first argument) is the
length of the input in all uses, which every branch strictly exceeds,
so the out-of-fuel identity is never reached. -/
def removeParensF : Nat → List Char → List Char
  | 0, l => l
  | _ + 1, [] => []
  | f + 1, c :: rest =>
    if c = '(' then
      match afterClose rest with
      | some rest' => removeParensF f rest'
      | none => c :: removeParensF f rest
    else c :: removeParensF f rest

/-- Function-name derivation `endpointToFuncName(method, path)`: strip
regex groups and `?`, normalize, and prefix non-GET methods. -/
def endpointToFuncName (method path : String) : String :=
  let clean := String.mk (removeParensF path.data.length path.data)
  let clean2 := String.mk (clean.data.filter (fun c => c ≠ '?'))
  let name := toExportedName clean2
  match goUpperStr method with
  | "POST" => "Post" ++ name
  | "PUT" => "Put" ++ name
  | "DELETE" => "Delete" ++ name
  | _ => name

/-- `strings.TrimPrefix(path, "/")`: drop one leading slash if present. -/
def trimSlashOnce (s : String) : String :=
  match s.data with
  | '/' :: t => String.mk t
  | _ => s

/-- `strings.Split(s, sep)` for a one-rune separator (keeps empty parts). -/
def splitOnChar (sep : Char) (s : List Char) : List (List Char) :=
  s.foldr
    (fun c acc =>
      if c = sep then [] :: acc
      else
        match acc with
        | [] => [[c]]
        | r :: rs => (c :: r) :: rs)
    [[]]

/-- Group derivation `pathToGroup(path)`: second segment when the first is
`rest`, else the first segment, with fallback `root`. -/
def pathToGroup (path : String) : String :=
  let parts := (splitOnChar '/' (trimSlashOnce path).data).map String.mk
  match parts with
  | p0 :: p1 :: _ => if p0 = "rest" then p1 else p0
  | _ => "root"

/-- `regexPathPart.MatchString(path)`: some `'('` is followed by a later
`')'` (paths contain no newlines, see `afterClose`). -/
def containsParenGroup : List Char → Bool
  | [] => false
  | c :: t =>
    if c = '(' then t.any (fun d => d = ')') || containsParenGroup t
    else containsParenGroup t

/-- Dynamic-path detection `hasPathParams(path, params)`. -/
def hasPathParams (path : String) (params : List SwaggerParam) : Bool :=
  path.data.any (fun c => c = '{') || containsParenGroup path.data
    || params.any (fun p => decide (p.In = "path"))

/-- The comparator of the `sort.Slice` call that orders endpoints for
emission: by group, then by path; the method does not participate. -/
def endpointLess (a b : Endpoint) : Bool :=
  if a.Group ≠ b.Group then strLtB a.Group b.Group else strLtB a.Path b.Path

/-- The postcondition of `sort.Slice(endpoints, less)` applied to an input
arrangement: the output is a permutation of the input that is sorted with
respect to the comparator (for no pair in output order does the comparator
order them strictly the other way).  `sort.Slice` is not stable and the
input arrangement comes from ranging over a Go map, so one run of the
generator produces SOME list satisfying this postcondition. -/
def SortedRun (input output : List Endpoint) : Prop :=
  output.Perm input ∧ output.Pairwise (fun a b => endpointLess b a = false)

/-- The (group, path) sort key of an endpoint. -/
def epKey (e : Endpoint) : String × String := (e.Group, e.Path)

/-- Parameter-kind mapping `swaggerTypeToGo`. -/
def swaggerTypeToGo (t : String) : String :=
  match t with
  | "integer" => "int"
  | "number" => "float64"
  | "boolean" => "bool"
  | _ => "string"

/-- The signature parameter list of one generated operation: path
parameters, then query parameters, then an untyped body when some
parameter has location `body`. -/
def sigParams (ep : Endpoint) : List String :=
  (ep.Params.filter (fun p => decide (p.In = "path"))).map
      (fun p => toLowerCamel p.Name ++ " " ++ swaggerTypeToGo p.Ptype)
    ++ (ep.Params.filter (fun p => decide (p.In = "query"))).map
      (fun p => toLowerCamel p.Name ++ " " ++ swaggerTypeToGo p.Ptype)
    ++ (if ep.Params.any (fun p => decide (p.In = "body"))
        then ["body interface\x7b\x7d"] else [])

/-- One word character of `\w`. -/
def isWordCh (c : Char) : Bool := isAlnumCh c || c = '_'

/-- Replace every `{name}` placeholder by `%v`
(the regexp `\{(\w+)\}`; fuel as in `removeParensF`). -/
def replaceBracesF : Nat → List Char → List Char
  | 0, l => l
  | _ + 1, [] => []
  | f + 1, c :: rest =>
    if c = '{' then
      match rest.dropWhile isWordCh with
      | '}' :: rest' =>
          if rest.takeWhile isWordCh = [] then c :: replaceBracesF f rest
          else '%' :: 'v' :: replaceBracesF f rest'
      | _ => c :: replaceBracesF f rest
    else c :: replaceBracesF f rest

/-- Replace every non-greedy `(...)` group by `%v`
(`regexPathPart.ReplaceAllString(pathExpr, "%v")`; fuel as above). -/
def replaceParensF : Nat → List Char → List Char
  | 0, l => l
  | _ + 1, [] => []
  | f + 1, c :: rest =>
    if c = '(' then
      match afterClose rest with
      | some rest' => '%' :: 'v' :: replaceParensF f rest'
      | none => c :: replaceParensF f rest
    else c :: replaceParensF f rest

/-- The format string built from the path template: brace placeholders,
then regex groups, each replaced by `%v`. -/
def pathExprOf (path : String) : String :=
  let r1 := replaceBracesF path.data.length path.data
  String.mk (replaceParensF r1.length r1)

/-- The `fmt.Sprintf` arguments: the lower-camel names of the path
parameters, in declaration order. -/
def pathParamNames (ep : Endpoint) : List String :=
  (ep.Params.filter (fun p => decide (p.In = "path"))).map
    (fun p => toLowerCamel p.Name)

/-- The path-construction expression emitted into the operation body:
a `fmt.Sprintf` of the template and the path parameters when there are
any, else the quoted literal path (`%q`; schema paths contain no
characters that `%q` escapes). -/
def pathBuild (ep : Endpoint) : String :=
  if pathParamNames ep = [] then "\"" ++ ep.Path ++ "\""
  else
    "fmt.Sprintf(\"" ++ pathExprOf ep.Path ++ "\", "
      ++ String.intercalate ", " (pathParamNames ep) ++ ")"

/-- The body argument passed to `doRequest`. -/
def bodyArg (ep : Endpoint) : String :=
  if ep.Params.any (fun p => decide (p.In = "body")) then "body" else "nil"

/-- Everything of the emitted operation that determines the outgoing HTTP
request: the method, the path-construction expression and the body
argument of the generated `c.doRequest(method, path, body)` call. -/
def requestParts (ep : Endpoint) : String × String × String :=
  (ep.Method, pathBuild ep, bodyArg ep)

/-- `strings.HasPrefix(s, p)` (arguments: prefix first). -/
def hasPrefixB (p s : String) : Bool := p.data.isPrefixOf s.data

/-- The typed-response test of `generateClient` on the looked-up response
type string. -/
def hasTypedResponse (retType : String) : Bool :=
  decide (retType ≠ "") && !hasPrefixB "[]" retType
    && decide (retType ≠ "string") && decide (retType ≠ "bool")
    && decide (retType ≠ "int64") && decide (retType ≠ "float64")
    && decide (retType ≠ "interface\x7b\x7d")
    && decide (retType ≠ "map[string]interface\x7b\x7d")

/-- The three result-handling shapes a generated operation can have:
a typed pointer result with unmarshal errors surfaced, the raw undecoded
`json.RawMessage` bytes, or a decoded value of a non-struct type. -/
inductive RetShape where
  | typedPtr (t : String)
  | rawBytes
  | decodedValue (t : String)
deriving DecidableEq

/-- The result handling chosen by `generateClient` from the
`responseTypes[ep.FuncName]` lookup (a missing key reads as `""`). -/
def retShape (assoc : Option String) : RetShape :=
  let retType0 := assoc.getD ""
  let typed := hasTypedResponse retType0
  let retType := if retType0 = "" then "json.RawMessage" else retType0
  if typed then RetShape.typedPtr retType
  else if retType = "json.RawMessage" then RetShape.rawBytes
  else RetShape.decodedValue retType

/-- The operation-name assignment loop of `generateClient`: a name already
seen gets the method appended; the assigned name (only) is then marked
seen. -/
def assignNamesAux : List Endpoint → List String → List String
  | [], _ => []
  | ep :: rest, seen =>
    let n := if ep.FuncName ∈ seen then ep.FuncName ++ ep.Method else ep.FuncName
    n :: assignNamesAux rest (n :: seen)

/-- The emitted operation names, in emission order. -/
def assignNames (eps : List Endpoint) : List String := assignNamesAux eps []

/-- The observable outcome of one `http.Get`: a transport error, or a
status together with the body length and the result of JSON-parsing the
body. -/
inductive Outcome where
  | transportErr
  | resp (status : Nat) (bodyLen : Nat) (parsed : Option Json)

/-- The sampler's classification of an outcome, in the order the source
checks: transport error, non-200 status, empty body, non-JSON body,
success. -/
inductive SampleClass where
  | transportError
  | badStatus
  | emptyBody
  | notJson
  | ok (v : Json)

/-- Outcome classification of the sampling loop. -/
def classify : Outcome → SampleClass
  | Outcome.transportErr => SampleClass.transportError
  | Outcome.resp st len p =>
    if st ≠ 200 then SampleClass.badStatus
    else if len = 0 then SampleClass.emptyBody
    else
      match p with
      | none => SampleClass.notJson
      | some v => SampleClass.ok v

/-- Whether a classification is the success case. -/
def isOkB : SampleClass → Bool
  | SampleClass.ok _ => true
  | _ => false

/-- The state threaded through the sampling loop: the
`endpointResponseType` map, the record table, the endpoints actually
called (one entry per issued `http.Get`), and the three counters. -/
structure SampleState where
  respTypes : Tbl
  structs : Tbl
  called : List Endpoint
  totalGetCalls : Nat
  successCalls : Nat
  skippedCalls : Nat

/-- The state before the sampling loop. -/
def initSampleState : SampleState := ⟨[], [], [], 0, 0, 0⟩

/-- The guard of the sampling loop: GET method and no dynamic path
(`if ep.Method != "GET" || ep.HasPathP { continue }`). -/
def eligible (ep : Endpoint) : Bool :=
  decide (ep.Method = "GET") && !ep.HasPathP

/-- One iteration of the sampling loop over one endpoint, with the
endpoint's observable HTTP outcome supplied by `oc`. -/
def sampleStep (fuel : Nat) (oc : Endpoint → Outcome) (st : SampleState)
    (ep : Endpoint) : SampleState :=
  if eligible ep then
    let st1 := { st with
      called := st.called ++ [ep], totalGetCalls := st.totalGetCalls + 1 }
    match classify (oc ep) with
    | SampleClass.ok v =>
      let r := inferGo fuel (ep.FuncName ++ "Response") v st1.structs
      { st1 with
        respTypes := insertTbl ep.FuncName r.1 st1.respTypes
        structs := r.2
        successCalls := st1.successCalls + 1 }
    | _ => { st1 with skippedCalls := st1.skippedCalls + 1 }
  else st

/-- The whole sampling loop over the endpoint list. -/
def sampleRun (fuel : Nat) (oc : Endpoint → Outcome) (eps : List Endpoint) :
    SampleState :=
  eps.foldl (sampleStep fuel oc) initSampleState

/-- The exact rational 11/2, i.e. the JSON number 5.5 (spelt as an explicit
fraction so that it evaluates inside the kernel). -/
def q55 : ℚ := ⟨11, 2, by decide, by decide⟩

/-- Endpoint descriptor of `GET /rest/foo` as the main loop builds it. -/
def epRestFooGet : Endpoint := ⟨"/rest/foo", "GET", [], "foo", "RestFoo", false⟩

/-- Endpoint descriptor of `POST /rest/foo` as the main loop builds it
(same group and path as `epRestFooGet`, different method). -/
def epRestFooPost : Endpoint := ⟨"/rest/foo", "POST", [], "foo", "PostRestFoo", false⟩

/-- Endpoint descriptor of `GET /rest/bar` (a second group). -/
def epRestBarGet : Endpoint := ⟨"/rest/bar", "GET", [], "bar", "RestBar", false⟩

/-- The JSON object `{"a":1, "a2":2, "a_":3}`: three keys whose normalized
field names collide in a way the suffix counter does not resolve. -/
def ce5Entries : List (String × Json) :=
  [("a", Json.num 1), ("a2", Json.num 2), ("a_", Json.num 3)]

/-- Endpoint `GET /foo` (function name `Foo`). -/
def epFoo1 : Endpoint := ⟨"/foo", "GET", [], "foo", "Foo", false⟩

/-- Endpoint `GET /foo/`: a distinct path that canonicalizes to the same
function name `Foo`. -/
def epFoo2 : Endpoint := ⟨"/foo/", "GET", [], "foo", "Foo", false⟩

/-- Endpoint `GET //foo`: a third distinct path with function name `Foo`. -/
def epFoo3 : Endpoint := ⟨"//foo", "GET", [], "foo", "Foo", false⟩

/-- An outcome oracle: `/foo` answers 200 with the JSON body `{"a":1}`
(8 bytes), every other path answers 500 with an empty body. -/
def ocSplit : Endpoint → Outcome := fun ep =>
  if ep.Path = "/foo" then Outcome.resp 200 8 (some (Json.obj [("a", Json.num 1)]))
  else Outcome.resp 500 0 none

/-- An ASCII letter. -/
def isAsciiLetter (c : Char) : Bool := isLowerCh c || isUpperCh c

/-- The first alphanumeric character of the raw input is an ASCII letter
(the inputs for which the naming engine can guarantee a valid identifier). -/
def firstSegLetterB (s : List Char) : Bool :=
  match s.dropWhile (fun c => !isAlnumCh c) with
  | [] => false
  | c :: _ => isAsciiLetter c

/-- A syntactically valid Go identifier over the alphanumeric output
alphabet of the naming engine: non-empty, a letter first, alphanumeric
throughout. -/
def isGoIdentCharsB : List Char → Bool
  | [] => false
  | c :: cs => isAsciiLetter c && cs.all isAlnumCh

/-- All 25 reserved words of Go. -/
def goKeywords : List String :=
  ["break", "case", "chan", "const", "continue", "default", "defer", "else",
   "fallthrough", "for", "func", "go", "goto", "if", "import", "interface",
   "map", "package", "range", "return", "select", "struct", "switch",
   "type", "var"]

/-- Shape of the candidate type names the generator feeds to the inference
engine (root names are `FuncName ++ "Response"`): non-empty, ASCII
alphanumeric, not starting with a lower-case letter.  Such a name can never
collide with the primitive type strings tested by `hasTypedResponse`. -/
def candidateOkB (name : String) : Bool :=
  (match name.data with
   | [] => false
   | c :: _ => !isLowerCh c)
  && name.data.all isAlnumCh

/-- The head of the first non-empty segment of a split, if any. -/
def firstNeHead : List (List Char) → Option Char
  | [] => none
  | [] :: ps => firstNeHead ps
  | (c :: _) :: _ => some c

/-- The first rune of a string is not an upper-case ASCII letter (true for
the empty string); holds for every Go keyword. -/
def headNotUpperB (u : String) : Bool :=
  match u.data with
  | [] => true
  | d :: _ => !isUpperCh d

/-! ### Order helper lemmas -/

theorem ltCharsB_asymm_eq : ∀ (a b : List Char),
    ltCharsB a b = false → ltCharsB b a = false → a = b := by
  intro a
  induction a with
  | nil =>
    intro b h1 _
    cases b with
    | nil => rfl
    | cons d ds => simp [ltCharsB] at h1
  | cons c cs ih =>
    intro b h1 h2
    cases b with
    | nil => simp [ltCharsB] at h2
    | cons d ds =>
      by_cases hcd : c.toNat < d.toNat
      · simp [ltCharsB, hcd] at h1
      · by_cases hdc : d.toNat < c.toNat
        · simp [ltCharsB, hdc] at h2
        · have hc : c = d := by
            have hn : c.toNat = d.toNat :=
              Nat.le_antisymm (Nat.le_of_not_lt hdc) (Nat.le_of_not_lt hcd)
            exact Char.ext (UInt32.ext (by simpa [Char.toNat] using hn))
          subst hc
          have h1' : ltCharsB cs ds = false := by simpa [ltCharsB, hcd] using h1
          have h2' : ltCharsB ds cs = false := by simpa [ltCharsB, hcd] using h2
          rw [ih ds h1' h2']

theorem strLtB_asymm_eq (a b : String)
    (h1 : strLtB a b = false) (h2 : strLtB b a = false) : a = b := by
  cases a with
  | mk da =>
    cases b with
    | mk db =>
      have : da = db := ltCharsB_asymm_eq da db h1 h2
      rw [this]

theorem endpointLess_ff_key_eq {a b : Endpoint}
    (h1 : endpointLess a b = false) (h2 : endpointLess b a = false) :
    epKey a = epKey b := by
  unfold endpointLess at h1 h2
  by_cases hg : a.Group = b.Group
  · rw [if_neg (by simp [hg])] at h1
    rw [if_neg (by simp [hg])] at h2
    have := strLtB_asymm_eq _ _ h1 h2
    simp [epKey, hg, this]
  · rw [if_pos hg] at h1
    rw [if_pos (Ne.symm hg)] at h2
    exact absurd (strLtB_asymm_eq _ _ h1 h2) hg

theorem sortedPairwise_unique : ∀ (l₁ l₂ : List Endpoint),
    l₁.Perm l₂ →
    l₁.Pairwise (fun a b => endpointLess b a = false) →
    l₂.Pairwise (fun a b => endpointLess b a = false) →
    (l₁.map epKey).Nodup → l₁ = l₂ := by
  intro l₁
  induction l₁ with
  | nil =>
    intro l₂ hp _ _ _
    exact hp.nil_eq
  | cons a t ih =>
    intro l₂ hp hs1 hs2 hnd
    cases l₂ with
    | nil => exact absurd hp.symm.nil_eq (by simp)
    | cons b t₂ =>
      have hab : a = b := by
        by_contra hne
        have hbmem : b ∈ t := by
          have hm : b ∈ a :: t := hp.symm.subset (List.mem_cons_self b t₂)
          cases List.mem_cons.mp hm with
          | inl h => exact absurd h.symm hne
          | inr h => exact h
        have hamem : a ∈ t₂ := by
          have hm : a ∈ b :: t₂ := hp.subset (List.mem_cons_self a t)
          cases List.mem_cons.mp hm with
          | inl h => exact absurd h hne
          | inr h => exact h
        have r1 : endpointLess b a = false := (List.pairwise_cons.mp hs1).1 b hbmem
        have r2 : endpointLess a b = false := (List.pairwise_cons.mp hs2).1 a hamem
        have hk : epKey a = epKey b := endpointLess_ff_key_eq r2 r1
        have hnotin : epKey a ∉ t.map epKey := by
          have hh : (epKey a :: t.map epKey).Nodup := by simpa using hnd
          exact (List.nodup_cons.mp hh).1
        exact hnotin (hk ▸ List.mem_map_of_mem epKey hbmem)
      subst hab
      have hp' : t.Perm t₂ := hp.cons_inv
      have hnd' : (t.map epKey).Nodup := by
        have hh : (epKey a :: t.map epKey).Nodup := by simpa using hnd
        exact (List.nodup_cons.mp hh).2
      rw [ih t₂ hp' (List.pairwise_cons.mp hs1).2 (List.pairwise_cons.mp hs2).2 hnd']

/-! ### Claim C1 -/

/-- Claim C1 as stated is false: two endpoints sharing group and path but
differing in method tie under the `sort.Slice` comparator, so both
arrangements of them satisfy the sorting postcondition of a run, yet the
two arrangements differ — the emission order of such endpoints is not the
same in every run.  (The last conjuncts certify that the two descriptors
are exactly what the builder derives for `GET /rest/foo` and
`POST /rest/foo`.) -/
theorem C1_tie_order_counterexample :
    SortedRun [epRestFooGet, epRestFooPost] [epRestFooGet, epRestFooPost]
    ∧ SortedRun [epRestFooGet, epRestFooPost] [epRestFooPost, epRestFooGet]
    ∧ [epRestFooGet, epRestFooPost] ≠ [epRestFooPost, epRestFooGet]
    ∧ epRestFooGet.FuncName = endpointToFuncName "get" "/rest/foo"
    ∧ epRestFooPost.FuncName = endpointToFuncName "post" "/rest/foo"
    ∧ epRestFooGet.Group = pathToGroup "/rest/foo"
    ∧ epRestFooPost.Group = pathToGroup "/rest/foo" :=
  ⟨⟨by decide, by decide⟩, ⟨by decide, by decide⟩,
    by decide, by decide, by decide, by decide, by decide⟩

/-- Claim C1 (amended): the emission order is the same across any two runs
of the generator — i.e. any two outputs of the endpoint sort, over
whatever arrangement the schema-map iteration produced — provided no two
endpoints share the same (group, path) sort key.  For endpoints sharing
the key (same group and path, different method) the comparator cannot
order them and either order can be emitted (see the counterexample). -/
theorem C1_emission_order_unique (base out₁ out₂ : List Endpoint)
    (hnd : (base.map epKey).Nodup)
    (h₁ : SortedRun base out₁) (h₂ : SortedRun base out₂) : out₁ = out₂ := by
  have hp : out₁.Perm out₂ := h₁.1.trans h₂.1.symm
  have hnd₁ : (out₁.map epKey).Nodup := (h₁.1.map epKey).nodup_iff.mpr hnd
  exact sortedPairwise_unique out₁ out₂ hp h₁.2 h₂.2 hnd₁

/-- Witness for C1: on the two-group list the hypotheses hold and the
theorem applies, forcing the unique sorted output. -/
theorem C1_emission_order_unique_witness :
    (([epRestFooGet, epRestBarGet].map epKey).Nodup)
    ∧ [epRestBarGet, epRestFooGet] = [epRestBarGet, epRestFooGet] :=
  ⟨by decide,
    C1_emission_order_unique [epRestFooGet, epRestBarGet]
      [epRestBarGet, epRestFooGet] [epRestBarGet, epRestFooGet]
      (by decide) ⟨by decide, by decide⟩ ⟨by decide, by decide⟩⟩

/-! ### Claim C3 -/

/-- Claim C3: a JSON number is classified `int64` exactly when it equals
its own truncation to a 64-bit integer, and `float64` otherwise; in
particular 5.0 and 0 classify as `int64` and 5.5 as `float64`. -/
theorem C3_number_classification :
    (∀ (f : Nat) (name : String) (tbl : Tbl) (q : ℚ),
      ((inferGo (f + 1) name (Json.num q) tbl).1 = "int64" ↔
        (q = ((ratTrunc q : ℤ) : ℚ)
          ∧ -(2 ^ 63) ≤ ratTrunc q ∧ ratTrunc q < 2 ^ 63))
      ∧ ((inferGo (f + 1) name (Json.num q) tbl).1 = "int64"
          ∨ (inferGo (f + 1) name (Json.num q) tbl).1 = "float64"))
    ∧ (inferGo 1 "T" (Json.num 5) []).1 = "int64"
    ∧ (inferGo 1 "T" (Json.num q55) []).1 = "float64"
    ∧ q55 = 5.5
    ∧ (inferGo 1 "T" (Json.num 0) []).1 = "int64" := by
  refine ⟨?_, by decide, by decide,
    by rw [q55, Rat.mk'_eq_divInt, Rat.divInt_eq_div]; norm_num, by decide⟩
  intro f name tbl q
  have hshape : (inferGo (f + 1) name (Json.num q) tbl).1
      = (if isInt64Rat q then "int64" else "float64") := by
    simp [inferGo, inferGoF]
  by_cases h : isInt64Rat q = true
  · have hq : q.den = 1 ∧ -(2 ^ 63) ≤ q.num ∧ q.num < 2 ^ 63 := by
      simpa [isInt64Rat, Bool.and_eq_true, decide_eq_true_eq, and_assoc] using h
    have htr : ratTrunc q = q.num := by
      rw [ratTrunc, hq.1]
      exact Int.tdiv_one q.num
    constructor
    · rw [hshape, if_pos h]
      simp only [true_iff]
      refine ⟨?_, ?_, ?_⟩
      · rw [htr]
        exact ((Rat.den_eq_one_iff q).mp hq.1).symm
      · rw [htr]; exact hq.2.1
      · rw [htr]; exact hq.2.2
    · left
      rw [hshape, if_pos h]
  · have h' : isInt64Rat q = false := by
      cases hb : isInt64Rat q with
      | false => rfl
      | true => exact absurd hb h
    constructor
    · rw [hshape, h']
      simp only [Bool.false_eq_true, if_false]
      constructor
      · intro hcontra
        exact absurd hcontra (by decide)
      · rintro ⟨heq, hb1, hb2⟩
        have hden : q.den = 1 := by rw [heq]; exact Rat.den_intCast _
        have hnum : q.num = ratTrunc q := by
          conv_lhs => rw [heq]
          exact Rat.num_intCast _
        have : isInt64Rat q = true := by
          simp only [isInt64Rat, Bool.and_eq_true, beq_iff_eq,
            decide_eq_true_eq, and_assoc]
          exact ⟨hden, by rw [hnum]; exact hb1, by rw [hnum]; exact hb2⟩
        exact absurd this h
    · right
      rw [hshape, h']
      simp

/-! ### Table helper lemmas -/

theorem lookupT_insertTbl_self : ∀ (tbl : Tbl) (n d : String),
    lookupT (insertTbl n d tbl) n = some d := by
  intro tbl
  induction tbl with
  | nil => intro n d; simp [insertTbl, lookupT]
  | cons e t ih =>
    intro n d
    by_cases h : e.1 = n
    · simp [insertTbl, h, lookupT]
    · cases e with
      | mk m x =>
        simp only at h
        simp [insertTbl, h, lookupT, ih]

theorem lookupT_insertTbl_ne : ∀ (tbl : Tbl) (n d k : String), k ≠ n →
    lookupT (insertTbl n d tbl) k = lookupT tbl k := by
  intro tbl
  induction tbl with
  | nil =>
    intro n d k hk
    simp [insertTbl, lookupT]
    intro h
    exact absurd h.symm hk
  | cons e t ih =>
    intro n d k hk
    cases e with
    | mk m x =>
      by_cases h : m = n
      · subst h
        have hmk : ¬ m = k := fun h' => hk h'.symm
        simp [insertTbl, lookupT, hmk]
      · simp [insertTbl, h, lookupT, ih n d k hk]

/-- Definitional unfolding of one inference step on a non-empty object. -/
theorem inferGo_obj_cons (f : Nat) (name : String) (e : String × Json)
    (es : List (String × Json)) (tbl : Tbl) :
    inferGo (f + 1) name (Json.obj (e :: es)) tbl
      = (if allNumericB (sortStrings ((e :: es).map Prod.fst))
            && decide (1 < (sortStrings ((e :: es).map Prod.fst)).length) then
           ("map[string]"
              ++ (inferGo f (name ++ "Item")
                    (lookupJD (e :: es) (sortStrings ((e :: es).map Prod.fst)).headI)
                    tbl).1,
            (inferGo f (name ++ "Item")
               (lookupJD (e :: es) (sortStrings ((e :: es).map Prod.fst)).headI)
               tbl).2)
         else
           (name,
            insertTbl name
              (mkStructDef name
                (buildFields (inferGo f) name (e :: es)
                  (sortStrings ((e :: es).map Prod.fst)) [] tbl).1)
              (buildFields (inferGo f) name (e :: es)
                (sortStrings ((e :: es).map Prod.fst)) [] tbl).2)) := rfl

/-! ### Claim C2 -/

/-- Claim C2: a non-empty JSON object infers as a mapping (of text to the
type inferred for the value of the first key in sorted order) exactly when
every key consists solely of decimal digits and there is more than one key,
and as a registered record otherwise; in particular
`{"1":{"x":1},"2":{"x":2}}` infers as a mapping of text to a record with
field `x`, `{"a":1,"b":2}` as a record with fields `a` and `b`, and
`{"1":5}` as a record (with the digit-guarded field `N1`), not a map. -/
theorem C2_map_vs_record :
    (∀ (f : Nat) (name : String) (tbl : Tbl) (entries : List (String × Json)),
      entries ≠ [] →
      (((∀ k ∈ entries.map Prod.fst, ∀ c ∈ k.data, isDigitCh c = true)
          ∧ 1 < entries.length) →
        (inferGo (f + 1) name (Json.obj entries) tbl).1
          = "map[string]"
            ++ (inferGo f (name ++ "Item")
                  (lookupJD entries (sortStrings (entries.map Prod.fst)).headI)
                  tbl).1)
      ∧ (¬ ((∀ k ∈ entries.map Prod.fst, ∀ c ∈ k.data, isDigitCh c = true)
            ∧ 1 < entries.length) →
        (inferGo (f + 1) name (Json.obj entries) tbl).1 = name
          ∧ lookupT (inferGo (f + 1) name (Json.obj entries) tbl).2 name ≠ none))
    ∧ (inferGo 3 "TResponse"
        (Json.obj [("1", Json.obj [("x", Json.num 1)]),
                   ("2", Json.obj [("x", Json.num 2)])]) []).1
        = "map[string]TResponseItem"
    ∧ (inferGo 3 "TResponse"
        (Json.obj [("1", Json.obj [("x", Json.num 1)]),
                   ("2", Json.obj [("x", Json.num 2)])]) []).2
        = [("TResponseItem",
            "type TResponseItem struct \x7b\n\tX int64 \x60json:\"x\"\x60\n\x7d")]
    ∧ inferGo 2 "TResponse" (Json.obj [("a", Json.num 1), ("b", Json.num 2)]) []
        = ("TResponse",
           [("TResponse",
             "type TResponse struct \x7b\n\tA int64 \x60json:\"a\"\x60\n\tB int64 \x60json:\"b\"\x60\n\x7d")])
    ∧ inferGo 2 "TResponse" (Json.obj [("1", Json.num 5)]) []
        = ("TResponse",
           [("TResponse",
             "type TResponse struct \x7b\n\tN1 int64 \x60json:\"1\"\x60\n\x7d")]) := by
  refine ⟨?_, by decide, by decide, by decide, by decide⟩
  intro f name tbl entries hne
  have hperm : (sortStrings (entries.map Prod.fst)).Perm (entries.map Prod.fst) :=
    List.perm_insertionSort _ _
  have hlen : (sortStrings (entries.map Prod.fst)).length = entries.length := by
    rw [hperm.length_eq, List.length_map]
  have hiff : (allNumericB (sortStrings (entries.map Prod.fst))
        && decide (1 < (sortStrings (entries.map Prod.fst)).length)) = true
      ↔ ((∀ k ∈ entries.map Prod.fst, ∀ c ∈ k.data, isDigitCh c = true)
          ∧ 1 < entries.length) := by
    simp only [allNumericB, Bool.and_eq_true, decide_eq_true_eq, hlen,
      List.all_eq_true]
    constructor
    · rintro ⟨ha, hl⟩
      exact ⟨fun k hk c hc => ha k (hperm.mem_iff.mpr hk) c hc, hl⟩
    · rintro ⟨ha, hl⟩
      exact ⟨fun k hk c hc => ha k (hperm.mem_iff.mp hk) c hc, hl⟩
  cases entries with
  | nil => exact absurd rfl hne
  | cons e es =>
    constructor
    · intro hc
      have hb := hiff.mpr hc
      rw [inferGo_obj_cons, if_pos hb]
    · intro hc
      have hb : (allNumericB (sortStrings ((e :: es).map Prod.fst))
          && decide (1 < (sortStrings ((e :: es).map Prod.fst)).length)) = false := by
        cases hx : (allNumericB (sortStrings ((e :: es).map Prod.fst))
            && decide (1 < (sortStrings ((e :: es).map Prod.fst)).length)) with
        | true => exact absurd (hiff.mp hx) hc
        | false => rfl
      rw [inferGo_obj_cons, if_neg (by rw [hb]; simp)]
      refine ⟨rfl, ?_⟩
      rw [lookupT_insertTbl_self]
      simp

/-! ### Claim C5 -/

/-- Claim C5 is refuted by the code (a code bug): on the sorted keys
`a`, `a2`, `a_` the field loop assigns `A`, `A2` and then — suffixing the
collision of `a_`'s normalized name `A` with counter 2 — a second `A2`,
because the suffixed name is never recorded in `usedNames`; the emitted
record contains two fields named `A2`, contradicting both the claimed
uniqueness and the source's own "Deduplicate field names" comment. -/
theorem C5_duplicate_field_names :
    ((buildFields (inferGo 1) "T" ce5Entries
        (sortStrings (ce5Entries.map Prod.fst)) [] []).1.map Prod.fst
      = ["A", "A2", "A2"])
    ∧ ¬ ((buildFields (inferGo 1) "T" ce5Entries
        (sortStrings (ce5Entries.map Prod.fst)) [] []).1.map Prod.fst).Nodup
    ∧ (inferGo 2 "T" (Json.obj ce5Entries) []).2
        = [("T",
            "type T struct \x7b\n\tA int64 \x60json:\"a\"\x60\n\tA2 int64 \x60json:\"a2\"\x60\n\tA2 int64 \x60json:\"a_\"\x60\n\x7d")] :=
  ⟨by decide, by decide, by decide⟩

/-- Witness for C2: the general dichotomy applied to `{"1":1,"2":2}`,
whose keys are all numeric and number two. -/
theorem C2_map_vs_record_witness :
    ([("1", Json.num 1), ("2", Json.num 2)] ≠ ([] : List (String × Json)))
    ∧ (inferGo (0 + 1) "W" (Json.obj [("1", Json.num 1), ("2", Json.num 2)]) []).1
        = "map[string]"
          ++ (inferGo 0 "WItem"
                (lookupJD [("1", Json.num 1), ("2", Json.num 2)]
                  (sortStrings
                    ([("1", Json.num 1), ("2", Json.num 2)].map Prod.fst)).headI)
                []).1 :=
  ⟨List.cons_ne_nil _ _,
    (C2_map_vs_record.1 0 "W" [] [("1", Json.num 1), ("2", Json.num 2)]
        (List.cons_ne_nil _ _)).1 (by decide)⟩

/-! ### String helper lemmas for the result-shape analysis -/

theorem strData_eq (s t : String) (h : s.data = t.data) : s = t := by
  cases s
  cases t
  simp only at h
  rw [h]

theorem str_ne_of_head (a b : String) (c d : Char) (cs ds : List Char)
    (ha : a.data = c :: cs) (hb : b.data = d :: ds) (hcd : c ≠ d) : a ≠ b := by
  intro heq
  rw [heq, hb] at ha
  exact hcd (List.head_eq_of_cons_eq ha.symm)

theorem candidateOk_ne_lower (name : String) (h : candidateOkB name = true)
    (s : String) (c : Char) (cs : List Char) (hs : s.data = c :: cs)
    (hc : isLowerCh c = true) : name ≠ s := by
  intro heq
  subst heq
  simp only [candidateOkB, hs, Bool.and_eq_true] at h
  rw [hc] at h
  exact Bool.noConfusion h.1

theorem candidateOk_notBrackets (name : String) (h : candidateOkB name = true) :
    hasPrefixB "[]" name = false := by
  cases hp : hasPrefixB "[]" name with
  | false => rfl
  | true =>
    exfalso
    have hpre : ("[]" : String).data <+: name.data :=
      List.isPrefixOf_iff_prefix.mp hp
    obtain ⟨t, ht⟩ := hpre
    have hmem : '[' ∈ name.data := by
      rw [← ht]
      simp
    have hall : name.data.all isAlnumCh = true := by
      simp only [candidateOkB, Bool.and_eq_true] at h
      exact h.2
    have := List.all_eq_true.mp hall '[' hmem
    exact absurd this (by decide)

theorem candidateOk_ne_empty (name : String) (h : candidateOkB name = true) :
    name ≠ "" := by
  intro heq
  subst heq
  exact absurd h (by decide)

theorem candidateOk_hasTyped (name : String) (h : candidateOkB name = true) :
    hasTypedResponse name = true := by
  have h1 : name ≠ "" := candidateOk_ne_empty name h
  have h2 : hasPrefixB "[]" name = false := candidateOk_notBrackets name h
  have h3 : name ≠ "string" := candidateOk_ne_lower name h _ 's' _ rfl (by decide)
  have h4 : name ≠ "bool" := candidateOk_ne_lower name h _ 'b' _ rfl (by decide)
  have h5 : name ≠ "int64" := candidateOk_ne_lower name h _ 'i' _ rfl (by decide)
  have h6 : name ≠ "float64" := candidateOk_ne_lower name h _ 'f' _ rfl (by decide)
  have h7 : name ≠ "interface\x7b\x7d" :=
    candidateOk_ne_lower name h _ 'i' _ rfl (by decide)
  have h8 : name ≠ "map[string]interface\x7b\x7d" :=
    candidateOk_ne_lower name h _ 'm' _ rfl (by decide)
  simp [hasTypedResponse, h1, h2, h3, h4, h5, h6, h7, h8]

theorem hasPrefixB_append_self (p e : String) : hasPrefixB p (p ++ e) = true := by
  have : p.data <+: (p ++ e).data := by
    rw [String.data_append]
    exact List.prefix_append _ _
  exact List.isPrefixOf_iff_prefix.mpr this

theorem strAppend_right_inj (p a b : String) (h : p ++ a = p ++ b) : a = b := by
  have hd : p.data ++ a.data = p.data ++ b.data := by
    rw [← String.data_append, ← String.data_append, h]
  exact strData_eq a b (List.append_cancel_left hd)

theorem hasTypedResponse_brackets (e : String) :
    hasTypedResponse ("[]" ++ e) = false := by
  have hpre : hasPrefixB "[]" ("[]" ++ e) = true := hasPrefixB_append_self _ _
  simp [hasTypedResponse, hpre]

theorem map_append_data (e : String) : ("map[string]" ++ e).data
    = 'm' :: 'a' :: 'p' :: '[' :: 's' :: 't' :: 'r' :: 'i' :: 'n' :: 'g' :: ']' :: e.data := by
  rw [String.data_append]
  rfl

theorem brackets_append_data (e : String) : ("[]" ++ e).data
    = '[' :: ']' :: e.data := by
  rw [String.data_append]
  rfl

theorem hasPrefixB_false_of_heads (p s : String) (c d : Char)
    (cs ds : List Char) (hp : p.data = c :: cs) (hs : s.data = d :: ds)
    (hcd : c ≠ d) : hasPrefixB p s = false := by
  cases h : hasPrefixB p s with
  | false => rfl
  | true =>
    exfalso
    obtain ⟨t, ht⟩ := List.isPrefixOf_iff_prefix.mp h
    rw [hp, hs] at ht
    exact hcd (List.head_eq_of_cons_eq (by simpa using ht))

theorem ne_empty_of_head (a : String) (c : Char) (cs : List Char)
    (ha : a.data = c :: cs) : a ≠ "" := by
  intro heq
  rw [heq] at ha
  exact List.noConfusion ha

theorem hasTypedResponse_mapstring (e : String) (he : e ≠ "interface\x7b\x7d") :
    hasTypedResponse ("map[string]" ++ e) = true := by
  have h1 : "map[string]" ++ e ≠ "" := ne_empty_of_head _ 'm' _ (map_append_data e)
  have h2 : hasPrefixB "[]" ("map[string]" ++ e) = false :=
    hasPrefixB_false_of_heads _ _ '[' 'm' _ _ rfl (map_append_data e) (by decide)
  have h3 : "map[string]" ++ e ≠ "string" :=
    str_ne_of_head _ _ 'm' 's' _ _ (map_append_data e) rfl (by decide)
  have h4 : "map[string]" ++ e ≠ "bool" :=
    str_ne_of_head _ _ 'm' 'b' _ _ (map_append_data e) rfl (by decide)
  have h5 : "map[string]" ++ e ≠ "int64" :=
    str_ne_of_head _ _ 'm' 'i' _ _ (map_append_data e) rfl (by decide)
  have h6 : "map[string]" ++ e ≠ "float64" :=
    str_ne_of_head _ _ 'm' 'f' _ _ (map_append_data e) rfl (by decide)
  have h7 : "map[string]" ++ e ≠ "interface\x7b\x7d" :=
    str_ne_of_head _ _ 'm' 'i' _ _ (map_append_data e) rfl (by decide)
  have h8 : "map[string]" ++ e ≠ "map[string]interface\x7b\x7d" := by
    intro heq
    apply he
    apply strAppend_right_inj "map[string]" e "interface\x7b\x7d"
    rw [heq]
    decide
  simp [hasTypedResponse, h1, h2, h3, h4, h5, h6, h7, h8]

/-- Every inference result is a primitive literal, a slice type, a map
type, or the registered record name. -/
theorem inferGo_succ_shape (f : Nat) (name : String) (v : Json) (tbl : Tbl) :
    (inferGo (f + 1) name v tbl).1
        ∈ (["interface\x7b\x7d", "bool", "int64", "float64", "string"] : List String)
    ∨ (∃ e, (inferGo (f + 1) name v tbl).1 = "[]" ++ e)
    ∨ (∃ e, (inferGo (f + 1) name v tbl).1 = "map[string]" ++ e)
    ∨ ((inferGo (f + 1) name v tbl).1 = name
        ∧ lookupT (inferGo (f + 1) name v tbl).2 name ≠ none) := by
  cases v with
  | null => left; simp [inferGo, inferGoF]
  | bool b => left; simp [inferGo, inferGoF]
  | num q =>
    left
    by_cases h : isInt64Rat q = true
    · simp [inferGo, inferGoF, h]
    · simp [inferGo, inferGoF, h]
  | str s => left; simp [inferGo, inferGoF]
  | arr xs =>
    cases xs with
    | nil =>
      right; left
      exact ⟨"interface\x7b\x7d", by simp [inferGo, inferGoF]⟩
    | cons x xt =>
      right; left
      exact ⟨(inferGo f (name ++ "Item") x tbl).1, by simp [inferGo, inferGoF]⟩
  | obj entries =>
    cases entries with
    | nil =>
      right; right; left
      refine ⟨"interface\x7b\x7d", ?_⟩
      show (jsonObjectToStruct (inferGo f) name [] tbl).1 = _
      simp [jsonObjectToStruct]
    | cons e es =>
      rw [inferGo_obj_cons]
      by_cases hb : (allNumericB (sortStrings ((e :: es).map Prod.fst))
          && decide (1 < (sortStrings ((e :: es).map Prod.fst)).length)) = true
      · rw [if_pos hb]
        right; right; left
        exact ⟨_, rfl⟩
      · rw [if_neg hb]
        right; right; right
        refine ⟨rfl, ?_⟩
        rw [lookupT_insertTbl_self]
        simp

/-! ### Claim C6 -/

/-- Claim C6 as stated is false: the object `{"1":{"x":1},"2":{"x":2}}`
infers as the mapping type `map[string]TResponseItem`, which is not a
registered record name, yet `hasTypedResponse` accepts it and the emitter
gives the operation the typed-pointer treatment instead of the claimed
untyped/raw payload. -/
theorem C6_typed_mapping_counterexample :
    retShape (some (inferGo 3 "TResponse"
        (Json.obj [("1", Json.obj [("x", Json.num 1)]),
                   ("2", Json.obj [("x", Json.num 2)])]) []).1)
      = RetShape.typedPtr "map[string]TResponseItem"
    ∧ lookupT (inferGo 3 "TResponse"
        (Json.obj [("1", Json.obj [("x", Json.num 1)]),
                   ("2", Json.obj [("x", Json.num 2)])]) []).2
        "map[string]TResponseItem" = none
    ∧ hasPrefixB "map[string]" (inferGo 3 "TResponse"
        (Json.obj [("1", Json.obj [("x", Json.num 1)]),
                   ("2", Json.obj [("x", Json.num 2)])]) []).1 = true :=
  ⟨by decide, by decide, by decide⟩

theorem retShape_untyped_case (rt : String) (tbl2 : Tbl) (name : String)
    (hts : hasTypedResponse rt = false)
    (hnn : rt ≠ "") (hnj : rt ≠ "json.RawMessage")
    (hne : rt ≠ name)
    (hpf : hasPrefixB "map[string]" rt = false) :
    (retShape (some rt) = RetShape.typedPtr rt
      ↔ ((rt = name ∧ lookupT tbl2 name ≠ none)
          ∨ (hasPrefixB "map[string]" rt = true
              ∧ rt ≠ "map[string]interface\x7b\x7d")))
    ∧ retShape (some rt) ≠ RetShape.rawBytes := by
  constructor
  · apply iff_of_false
    · simp [retShape, hts, hnn, hnj]
    · rintro (⟨heq, _⟩ | ⟨hp2, _⟩)
      · exact hne heq
      · rw [hpf] at hp2
        exact Bool.noConfusion hp2
  · simp [retShape, hts, hnn, hnj]

/-- Claim C6 (amended): for a candidate name of the generator's shape, the
operation gets the typed-pointer treatment (unmarshal failures surfaced as
an error) exactly when the inferred type is the registered record name or
a mapping with a non-`interface\x7b\x7d` element — not only for records;
the raw undecoded-bytes shape arises exactly when no response type is
associated, and every other inferred type is returned as a decoded value
of that type. -/
theorem C6_result_shape (f : Nat) (name : String) (v : Json) (tbl : Tbl)
    (h : candidateOkB name = true) :
    (retShape (some (inferGo (f + 1) name v tbl).1)
        = RetShape.typedPtr (inferGo (f + 1) name v tbl).1
      ↔ (((inferGo (f + 1) name v tbl).1 = name
            ∧ lookupT (inferGo (f + 1) name v tbl).2 name ≠ none)
          ∨ (hasPrefixB "map[string]" (inferGo (f + 1) name v tbl).1 = true
              ∧ (inferGo (f + 1) name v tbl).1 ≠ "map[string]interface\x7b\x7d")))
    ∧ retShape (some (inferGo (f + 1) name v tbl).1) ≠ RetShape.rawBytes
    ∧ retShape none = RetShape.rawBytes := by
  have key : (retShape (some (inferGo (f + 1) name v tbl).1)
        = RetShape.typedPtr (inferGo (f + 1) name v tbl).1
      ↔ (((inferGo (f + 1) name v tbl).1 = name
            ∧ lookupT (inferGo (f + 1) name v tbl).2 name ≠ none)
          ∨ (hasPrefixB "map[string]" (inferGo (f + 1) name v tbl).1 = true
              ∧ (inferGo (f + 1) name v tbl).1 ≠ "map[string]interface\x7b\x7d")))
    ∧ retShape (some (inferGo (f + 1) name v tbl).1) ≠ RetShape.rawBytes := by
    rcases inferGo_succ_shape f name v tbl with hlit | ⟨e, he⟩ | ⟨e, he⟩ | ⟨hn, hl⟩
    · simp only [List.mem_cons, List.not_mem_nil, or_false] at hlit
      rcases hlit with h1 | h1 | h1 | h1 | h1
      · rw [h1]
        exact retShape_untyped_case _ _ name (by decide) (by decide) (by decide)
          (fun heq => (candidateOk_ne_lower name h _ 'i' _ rfl (by decide)) heq.symm)
          (by decide)
      · rw [h1]
        exact retShape_untyped_case _ _ name (by decide) (by decide) (by decide)
          (fun heq => (candidateOk_ne_lower name h _ 'b' _ rfl (by decide)) heq.symm)
          (by decide)
      · rw [h1]
        exact retShape_untyped_case _ _ name (by decide) (by decide) (by decide)
          (fun heq => (candidateOk_ne_lower name h _ 'i' _ rfl (by decide)) heq.symm)
          (by decide)
      · rw [h1]
        exact retShape_untyped_case _ _ name (by decide) (by decide) (by decide)
          (fun heq => (candidateOk_ne_lower name h _ 'f' _ rfl (by decide)) heq.symm)
          (by decide)
      · rw [h1]
        exact retShape_untyped_case _ _ name (by decide) (by decide) (by decide)
          (fun heq => (candidateOk_ne_lower name h _ 's' _ rfl (by decide)) heq.symm)
          (by decide)
    · rw [he]
      refine retShape_untyped_case _ _ name (hasTypedResponse_brackets e)
        (ne_empty_of_head _ '[' _ (brackets_append_data e))
        (str_ne_of_head _ _ '[' 'j' _ _ (brackets_append_data e) rfl (by decide))
        ?_
        (hasPrefixB_false_of_heads _ _ 'm' '[' _ _ rfl (brackets_append_data e)
          (by decide))
      intro heq
      have hp := hasPrefixB_append_self "[]" e
      rw [heq, candidateOk_notBrackets name h] at hp
      exact Bool.noConfusion hp
    · by_cases he2 : e = "interface\x7b\x7d"
      · subst he2
        rw [he, show ("map[string]" ++ "interface\x7b\x7d" : String)
            = "map[string]interface\x7b\x7d" from by decide]
        constructor
        · apply iff_of_false (by decide)
          rintro (⟨heq, _⟩ | ⟨_, hne2⟩)
          · exact (candidateOk_ne_lower name h _ 'm' _ rfl (by decide)) heq.symm
          · exact hne2 rfl
        · decide
      · rw [he]
        have hts := hasTypedResponse_mapstring e he2
        have hnn : "map[string]" ++ e ≠ "" :=
          ne_empty_of_head _ 'm' _ (map_append_data e)
        constructor
        · apply iff_of_true
          · simp [retShape, hts, hnn]
          · refine Or.inr ⟨hasPrefixB_append_self _ _, ?_⟩
            intro heq
            apply he2
            apply strAppend_right_inj "map[string]" e "interface\x7b\x7d"
            rw [heq]
            decide
        · simp [retShape, hts, hnn]
    · rw [hn]
      have hts := candidateOk_hasTyped name h
      have hnn := candidateOk_ne_empty name h
      constructor
      · apply iff_of_true
        · simp [retShape, hts, hnn]
        · exact Or.inl ⟨rfl, hn ▸ hl⟩
      · simp [retShape, hts, hnn]
  exact ⟨key.1, key.2, by decide⟩

/-- Witness for C6: the amended dichotomy applied to the record response
`{"a":1}` under the root candidate name `FooResponse`. -/
theorem C6_result_shape_witness :
    candidateOkB "FooResponse" = true
    ∧ (retShape (some (inferGo (0 + 1) "FooResponse"
          (Json.obj [("a", Json.num 1)]) []).1)
        = RetShape.typedPtr (inferGo (0 + 1) "FooResponse"
          (Json.obj [("a", Json.num 1)]) []).1
      ↔ (((inferGo (0 + 1) "FooResponse" (Json.obj [("a", Json.num 1)]) []).1
            = "FooResponse"
          ∧ lookupT (inferGo (0 + 1) "FooResponse"
              (Json.obj [("a", Json.num 1)]) []).2 "FooResponse" ≠ none)
        ∨ (hasPrefixB "map[string]" (inferGo (0 + 1) "FooResponse"
              (Json.obj [("a", Json.num 1)]) []).1 = true
            ∧ (inferGo (0 + 1) "FooResponse"
                (Json.obj [("a", Json.num 1)]) []).1
              ≠ "map[string]interface\x7b\x7d"))) :=
  ⟨by decide,
    (C6_result_shape 0 "FooResponse" (Json.obj [("a", Json.num 1)]) []
      (by decide)).1⟩

/-! ### Claim C7 -/

/-- Claim C7 is refuted for three or more colliding endpoints with the same
method: the second and third occurrences of `Foo` both receive the same
suffixed name `FooGET` (the seen-set is only consulted for the natural
name), so the emitted names are not pairwise distinct.  The trailing
conjuncts certify that three distinct declared paths really canonicalize
to the same function name under GET. -/
theorem C7_triple_collision_counterexample :
    assignNames [epFoo1, epFoo2, epFoo3] = ["Foo", "FooGET", "FooGET"]
    ∧ ¬ (assignNames [epFoo1, epFoo2, epFoo3]).Nodup
    ∧ epFoo1.FuncName = endpointToFuncName "get" "/foo"
    ∧ epFoo2.FuncName = endpointToFuncName "get" "/foo/"
    ∧ epFoo3.FuncName = endpointToFuncName "get" "//foo"
    ∧ [epFoo1.Path, epFoo2.Path, epFoo3.Path].Nodup :=
  ⟨by decide, by decide, by decide, by decide, by decide, by decide⟩

theorem assignNamesAux_nodup : ∀ (eps : List Endpoint) (seen : List String),
    (∀ e ∈ eps, (e.FuncName ++ e.Method) ∉ seen) →
    (∀ e ∈ eps, ∀ e' ∈ eps, e.FuncName ++ e.Method ≠ e'.FuncName) →
    (∀ n : String, eps.countP (fun e => e.FuncName == n)
        + (if n ∈ seen then 1 else 0) ≤ 2) →
    (∀ e ∈ eps, ∀ e' ∈ eps,
        e.FuncName ++ e.Method = e'.FuncName ++ e'.Method →
        e.FuncName = e'.FuncName ∧ e.Method = e'.Method) →
    (assignNamesAux eps seen).Nodup
      ∧ ∀ n ∈ assignNamesAux eps seen, n ∉ seen := by
  intro eps
  induction eps with
  | nil =>
    intro seen _ _ _ _
    exact ⟨List.nodup_nil, by simp [assignNamesAux]⟩
  | cons ep rest ih =>
    intro seen hA hB hC hD
    by_cases hseen : ep.FuncName ∈ seen
    · -- the natural name was already assigned: emit the suffixed name
      have hstep : assignNamesAux (ep :: rest) seen
          = (ep.FuncName ++ ep.Method)
            :: assignNamesAux rest ((ep.FuncName ++ ep.Method) :: seen) := by
        simp [assignNamesAux, hseen]
      have hcount2 : rest.countP (fun e => e.FuncName == ep.FuncName) = 0 := by
        by_contra hpos
        have hpos' : 0 < rest.countP (fun e => e.FuncName == ep.FuncName) :=
          Nat.pos_of_ne_zero hpos
        have := hC ep.FuncName
        rw [List.countP_cons, if_pos hseen] at this
        simp only [beq_self_eq_true, if_true] at this
        omega
      have hA' : ∀ e ∈ rest,
          (e.FuncName ++ e.Method) ∉ (ep.FuncName ++ ep.Method) :: seen := by
        intro e he
        simp only [List.mem_cons, not_or]
        constructor
        · intro heq
          have hnm := hD e (List.mem_cons_of_mem ep he) ep (List.mem_cons_self ep rest) heq
          have : 0 < rest.countP (fun x => x.FuncName == ep.FuncName) := by
            rw [List.countP_pos_iff]
            exact ⟨e, he, by simp [hnm.1]⟩
          omega
        · exact hA e (List.mem_cons_of_mem ep he)
      have hC' : ∀ n : String, rest.countP (fun e => e.FuncName == n)
          + (if n ∈ (ep.FuncName ++ ep.Method) :: seen then 1 else 0) ≤ 2 := by
        intro n
        by_cases hn : n = ep.FuncName ++ ep.Method
        · subst hn
          have hzero : rest.countP
              (fun e => e.FuncName == ep.FuncName ++ ep.Method) = 0 := by
            rw [List.countP_eq_zero]
            intro e he
            simp only [beq_eq_false_iff_ne, ne_eq, beq_iff_eq]
            intro heq
            exact hB ep (List.mem_cons_self ep rest) e
              (List.mem_cons_of_mem ep he) heq.symm
          rw [hzero]
          simp
        · have hite : (if n ∈ (ep.FuncName ++ ep.Method) :: seen then 1 else 0)
              = (if n ∈ seen then 1 else 0 : Nat) := by
            by_cases hns : n ∈ seen
            · rw [if_pos hns, if_pos (List.mem_cons_of_mem _ hns)]
            · rw [if_neg hns, if_neg ?_]
              simp only [List.mem_cons, not_or]
              exact ⟨hn, hns⟩
          rw [hite]
          have hthis := hC n
          rw [List.countP_cons] at hthis
          omega
      have hrest := ih ((ep.FuncName ++ ep.Method) :: seen) hA'
        (fun e he e' he' => hB e (List.mem_cons_of_mem ep he)
          e' (List.mem_cons_of_mem ep he'))
        hC'
        (fun e he e' he' => hD e (List.mem_cons_of_mem ep he)
          e' (List.mem_cons_of_mem ep he'))
      rw [hstep]
      constructor
      · rw [List.nodup_cons]
        refine ⟨?_, hrest.1⟩
        intro hmem
        exact (hrest.2 _ hmem) (List.mem_cons_self _ _)
      · intro n hn
        rcases List.mem_cons.mp hn with h1 | h1
        · subst h1
          exact hA ep (List.mem_cons_self ep rest)
        · intro hns
          exact (hrest.2 n h1) (List.mem_cons_of_mem _ hns)
    · -- fresh natural name
      have hstep : assignNamesAux (ep :: rest) seen
          = ep.FuncName :: assignNamesAux rest (ep.FuncName :: seen) := by
        simp [assignNamesAux, hseen]
      have hA' : ∀ e ∈ rest, (e.FuncName ++ e.Method) ∉ ep.FuncName :: seen := by
        intro e he
        simp only [List.mem_cons, not_or]
        exact ⟨hB e (List.mem_cons_of_mem ep he) ep (List.mem_cons_self ep rest),
          hA e (List.mem_cons_of_mem ep he)⟩
      have hC' : ∀ n : String, rest.countP (fun e => e.FuncName == n)
          + (if n ∈ ep.FuncName :: seen then 1 else 0) ≤ 2 := by
        intro n
        have hthis := hC n
        rw [List.countP_cons] at hthis
        by_cases hn : n = ep.FuncName
        · subst hn
          simp only [beq_self_eq_true, if_true] at hthis
          simp only [List.mem_cons, true_or, if_true]
          rw [if_neg hseen] at hthis
          omega
        · have hpa : (ep.FuncName == n) = false :=
            beq_eq_false_iff_ne.mpr (fun h => hn h.symm)
          rw [hpa] at hthis
          simp only [Bool.false_eq_true, if_false] at hthis
          have hite : (if n ∈ ep.FuncName :: seen then 1 else 0)
              = (if n ∈ seen then 1 else 0 : Nat) := by
            by_cases hns : n ∈ seen
            · rw [if_pos hns, if_pos (List.mem_cons_of_mem _ hns)]
            · rw [if_neg hns, if_neg ?_]
              simp only [List.mem_cons, not_or]
              exact ⟨fun h => hn h, hns⟩
          rw [hite]
          omega
      have hrest := ih (ep.FuncName :: seen) hA'
        (fun e he e' he' => hB e (List.mem_cons_of_mem ep he)
          e' (List.mem_cons_of_mem ep he'))
        hC'
        (fun e he e' he' => hD e (List.mem_cons_of_mem ep he)
          e' (List.mem_cons_of_mem ep he'))
      rw [hstep]
      constructor
      · rw [List.nodup_cons]
        refine ⟨?_, hrest.1⟩
        intro hmem
        exact (hrest.2 _ hmem) (List.mem_cons_self _ _)
      · intro n hn
        rcases List.mem_cons.mp hn with h1 | h1
        · subst h1
          exact hseen
        · intro hns
          exact (hrest.2 n h1) (List.mem_cons_of_mem _ hns)

/-- Claim C7 (amended): colliding operation names are disambiguated by the
method suffix and the emitted names are pairwise distinct provided (a) no
function name occurs more than twice, (b) no method-suffixed name
coincides with any endpoint's natural function name, and (c) the
method-suffixed names identify name and method.  With three or more
occurrences of the same (name, method) the suffixing repeats the same
string and duplicates are emitted (see the counterexample). -/
theorem C7_collision_disambiguation (eps : List Endpoint)
    (h1 : ∀ n : String, eps.countP (fun e => e.FuncName == n) ≤ 2)
    (h2 : ∀ e ∈ eps, ∀ e' ∈ eps, e.FuncName ++ e.Method ≠ e'.FuncName)
    (h3 : ∀ e ∈ eps, ∀ e' ∈ eps,
        e.FuncName ++ e.Method = e'.FuncName ++ e'.Method →
        e.FuncName = e'.FuncName ∧ e.Method = e'.Method) :
    (assignNames eps).Nodup :=
  (assignNamesAux_nodup eps [] (by simp) h2
    (fun n => by simpa using h1 n) h3).1

/-- Witness for C7: two endpoints with the same function name `Foo` under
GET emit the distinct names `Foo` and `FooGET`. -/
theorem C7_collision_disambiguation_witness :
    assignNames [epFoo1, epFoo2] = ["Foo", "FooGET"]
    ∧ (assignNames [epFoo1, epFoo2]).Nodup :=
  ⟨by decide,
    C7_collision_disambiguation [epFoo1, epFoo2]
      (fun n => le_trans
        (List.countP_le_length (fun (e : Endpoint) => e.FuncName == n)
          (l := [epFoo1, epFoo2]))
        (by decide))
      (by intro e he e' he'; fin_cases he <;> fin_cases he' <;> decide)
      (by intro e he e' he'; fin_cases he <;> fin_cases he' <;> decide)⟩

/-! ### Claim C8 -/

theorem isOkB_exists (s : SampleClass) (h : isOkB s = true) :
    ∃ v, s = SampleClass.ok v := by
  cases s with
  | ok v => exact ⟨v, rfl⟩
  | transportError => exact absurd h (by simp [isOkB])
  | badStatus => exact absurd h (by simp [isOkB])
  | emptyBody => exact absurd h (by simp [isOkB])
  | notJson => exact absurd h (by simp [isOkB])

theorem sampleStep_ineligible (fuel : Nat) (oc : Endpoint → Outcome)
    (st : SampleState) (ep : Endpoint) (h : eligible ep = false) :
    sampleStep fuel oc st ep = st := by
  simp [sampleStep, h]

theorem sampleStep_ok (fuel : Nat) (oc : Endpoint → Outcome)
    (st : SampleState) (ep : Endpoint) (v : Json)
    (h : eligible ep = true) (hcl : classify (oc ep) = SampleClass.ok v) :
    sampleStep fuel oc st ep
      = { st with
          called := st.called ++ [ep]
          totalGetCalls := st.totalGetCalls + 1
          respTypes := insertTbl ep.FuncName
            (inferGo fuel (ep.FuncName ++ "Response") v st.structs).1 st.respTypes
          structs := (inferGo fuel (ep.FuncName ++ "Response") v st.structs).2
          successCalls := st.successCalls + 1 } := by
  simp [sampleStep, h, hcl]

theorem sampleStep_skip (fuel : Nat) (oc : Endpoint → Outcome)
    (st : SampleState) (ep : Endpoint)
    (h : eligible ep = true) (hcl : isOkB (classify (oc ep)) = false) :
    sampleStep fuel oc st ep
      = { st with
          called := st.called ++ [ep]
          totalGetCalls := st.totalGetCalls + 1
          skippedCalls := st.skippedCalls + 1 } := by
  cases hc : classify (oc ep) with
  | ok v => rw [hc] at hcl; exact absurd hcl (by simp [isOkB])
  | transportError => simp [sampleStep, h, hc]
  | badStatus => simp [sampleStep, h, hc]
  | emptyBody => simp [sampleStep, h, hc]
  | notJson => simp [sampleStep, h, hc]

theorem sampleRun_counters (fuel : Nat) (oc : Endpoint → Outcome) :
    ∀ (eps : List Endpoint) (st : SampleState),
    (eps.foldl (sampleStep fuel oc) st).called
        = st.called ++ eps.filter (fun e => eligible e)
    ∧ (eps.foldl (sampleStep fuel oc) st).totalGetCalls
        = st.totalGetCalls + (eps.filter (fun e => eligible e)).length
    ∧ (eps.foldl (sampleStep fuel oc) st).successCalls
        = st.successCalls
          + (eps.filter (fun e => eligible e && isOkB (classify (oc e)))).length
    ∧ (eps.foldl (sampleStep fuel oc) st).skippedCalls
        = st.skippedCalls
          + (eps.filter (fun e => eligible e && !isOkB (classify (oc e)))).length := by
  intro eps
  induction eps with
  | nil => intro st; simp
  | cons ep rest ih =>
    intro st
    simp only [List.foldl_cons]
    by_cases he : eligible ep = true
    · by_cases hok : isOkB (classify (oc ep)) = true
      · obtain ⟨v, hv⟩ := isOkB_exists _ hok
        rw [sampleStep_ok fuel oc st ep v he hv]
        obtain ⟨ihc, iht, ihs, ihk⟩ := ih _
        rw [List.filter_cons_of_pos (by simp [he]),
          List.filter_cons_of_pos (by simp [he, hok]),
          List.filter_cons_of_neg (by simp [he, hok])]
        refine ⟨?_, ?_, ?_, ?_⟩
        · rw [ihc]
          simp
        · rw [iht]
          show st.totalGetCalls + 1 + _ = st.totalGetCalls + _
          simp only [List.length_cons]
          omega
        · rw [ihs]
          show st.successCalls + 1 + _ = st.successCalls + _
          simp only [List.length_cons]
          omega
        · rw [ihk]
      · have hok' : isOkB (classify (oc ep)) = false := Bool.eq_false_iff.mpr hok
        rw [sampleStep_skip fuel oc st ep he hok']
        obtain ⟨ihc, iht, ihs, ihk⟩ := ih _
        rw [List.filter_cons_of_pos (by simp [he]),
          List.filter_cons_of_neg (by simp [he, hok']),
          List.filter_cons_of_pos (by simp [he, hok'])]
        refine ⟨?_, ?_, ?_, ?_⟩
        · rw [ihc]
          simp
        · rw [iht]
          show st.totalGetCalls + 1 + _ = st.totalGetCalls + _
          simp only [List.length_cons]
          omega
        · rw [ihs]
        · rw [ihk]
          show st.skippedCalls + 1 + _ = st.skippedCalls + _
          simp only [List.length_cons]
          omega
    · have he' : eligible ep = false := Bool.eq_false_iff.mpr he
      rw [sampleStep_ineligible fuel oc st ep he']
      rw [List.filter_cons_of_neg (by simp [he']),
        List.filter_cons_of_neg (by simp [he']),
        List.filter_cons_of_neg (by simp [he'])]
      exact ih st

theorem sampleRun_respTypes_preserve (fuel : Nat) (oc : Endpoint → Outcome) :
    ∀ (eps : List Endpoint) (st : SampleState) (n : String),
    n ∉ eps.map (fun e => e.FuncName) →
    lookupT (eps.foldl (sampleStep fuel oc) st).respTypes n
      = lookupT st.respTypes n := by
  intro eps
  induction eps with
  | nil => intro st n _; rfl
  | cons ep rest ih =>
    intro st n hn
    simp only [List.map_cons, List.mem_cons, not_or] at hn
    simp only [List.foldl_cons]
    rw [ih _ n hn.2]
    by_cases he : eligible ep = true
    · by_cases hok : isOkB (classify (oc ep)) = true
      · obtain ⟨v, hv⟩ := isOkB_exists _ hok
        rw [sampleStep_ok fuel oc st ep v he hv]
        exact lookupT_insertTbl_ne _ _ _ _ hn.1
      · rw [sampleStep_skip fuel oc st ep he (Bool.eq_false_iff.mpr hok)]
    · rw [sampleStep_ineligible fuel oc st ep (Bool.eq_false_iff.mpr he)]

theorem sampleRun_lookup_iff (fuel : Nat) (oc : Endpoint → Outcome) :
    ∀ (eps : List Endpoint) (st : SampleState),
    (eps.map (fun e => e.FuncName)).Nodup →
    (∀ e ∈ eps, lookupT st.respTypes e.FuncName = none) →
    ∀ ep ∈ eps,
      (lookupT (eps.foldl (sampleStep fuel oc) st).respTypes ep.FuncName ≠ none
        ↔ (eligible ep = true ∧ isOkB (classify (oc ep)) = true)) := by
  intro eps
  induction eps with
  | nil =>
    intro st _ _ ep hep
    exact absurd hep (List.not_mem_nil ep)
  | cons e0 rest ih =>
    intro st hnd hnone ep hep
    rw [List.map_cons, List.nodup_cons] at hnd
    simp only [List.foldl_cons]
    rcases List.mem_cons.mp hep with heq | hmem
    · subst heq
      by_cases he : eligible ep = true
      · by_cases hok : isOkB (classify (oc ep)) = true
        · obtain ⟨v, hv⟩ := isOkB_exists _ hok
          rw [sampleStep_ok fuel oc st ep v he hv,
            sampleRun_respTypes_preserve fuel oc rest _ ep.FuncName hnd.1]
          simp only []
          rw [lookupT_insertTbl_self]
          simp [he, hok]
        · rw [sampleStep_skip fuel oc st ep he (Bool.eq_false_iff.mpr hok),
            sampleRun_respTypes_preserve fuel oc rest _ ep.FuncName hnd.1]
          simp only []
          rw [hnone ep (List.mem_cons_self _ _)]
          simp [hok]
      · rw [sampleStep_ineligible fuel oc st ep (Bool.eq_false_iff.mpr he),
          sampleRun_respTypes_preserve fuel oc rest _ ep.FuncName hnd.1,
          hnone ep (List.mem_cons_self _ _)]
        simp [he]
    · apply ih (sampleStep fuel oc st e0) hnd.2 ?_ ep hmem
      intro e her
      have hne : e.FuncName ≠ e0.FuncName := by
        intro hcontra
        exact hnd.1 (hcontra ▸ List.mem_map_of_mem _ her)
      by_cases he : eligible e0 = true
      · by_cases hok : isOkB (classify (oc e0)) = true
        · obtain ⟨v, hv⟩ := isOkB_exists _ hok
          rw [sampleStep_ok fuel oc st e0 v he hv]
          simp only []
          rw [lookupT_insertTbl_ne _ _ _ _ hne]
          exact hnone e (List.mem_cons_of_mem _ her)
        · rw [sampleStep_skip fuel oc st e0 he (Bool.eq_false_iff.mpr hok)]
          exact hnone e (List.mem_cons_of_mem _ her)
      · rw [sampleStep_ineligible fuel oc st e0 (Bool.eq_false_iff.mpr he)]
        exact hnone e (List.mem_cons_of_mem _ her)

/-- Claim C8 as stated is false in the presence of shared function names:
the response-type association is keyed by `FuncName`, so the endpoint
`GET /foo/` — eligible, sampled, and skipped with HTTP 500 — is
nevertheless associated with the response type inferred for `GET /foo`,
instead of being left untyped. -/
theorem C8_shared_name_counterexample :
    eligible epFoo2 = true
    ∧ isOkB (classify (ocSplit epFoo2)) = false
    ∧ lookupT (sampleRun 3 ocSplit [epFoo1, epFoo2]).respTypes epFoo2.FuncName
        ≠ none
    ∧ (sampleRun 3 ocSplit [epFoo1, epFoo2]).skippedCalls = 1
    ∧ (sampleRun 3 ocSplit [epFoo1, epFoo2]).successCalls = 1 :=
  ⟨by decide, by decide, by decide, by decide, by decide⟩

/-- Claim C8 (amended): provided the endpoints carry pairwise-distinct
function names, the sampling loop issues one request exactly per endpoint
whose method is GET and whose dynamic-path flag is false (in list order,
each at most once), counts every non-success among them as skipped, and
associates a response type with an endpoint exactly when its own call
classified as success (status 200, non-empty JSON body, no transport
error).  Without distinct function names an endpoint can inherit the type
of another endpoint's sample (see the counterexample). -/
theorem C8_sampler_contract (fuel : Nat) (oc : Endpoint → Outcome)
    (eps : List Endpoint)
    (hnd : (eps.map (fun e => e.FuncName)).Nodup) :
    (sampleRun fuel oc eps).called = eps.filter (fun e => eligible e)
    ∧ (sampleRun fuel oc eps).totalGetCalls
        = (eps.filter (fun e => eligible e)).length
    ∧ (sampleRun fuel oc eps).successCalls
        = (eps.filter (fun e => eligible e && isOkB (classify (oc e)))).length
    ∧ (sampleRun fuel oc eps).skippedCalls
        = (eps.filter (fun e => eligible e && !isOkB (classify (oc e)))).length
    ∧ (∀ ep : Endpoint, ((sampleRun fuel oc eps).called.count ep) ≤ 1)
    ∧ ∀ ep ∈ eps,
        (lookupT (sampleRun fuel oc eps).respTypes ep.FuncName ≠ none
          ↔ (eligible ep = true ∧ isOkB (classify (oc ep)) = true)) := by
  obtain ⟨hc, ht, hs, hk⟩ := sampleRun_counters fuel oc eps initSampleState
  have hc' : (sampleRun fuel oc eps).called = eps.filter (fun e => eligible e) := by
    rw [sampleRun, hc]
    rfl
  refine ⟨hc', by rw [sampleRun, ht]; simp [initSampleState],
    by rw [sampleRun, hs]; simp [initSampleState],
    by rw [sampleRun, hk]; simp [initSampleState], ?_, ?_⟩
  · intro ep
    have hnodup : eps.Nodup := List.Nodup.of_map _ hnd
    have : (eps.filter (fun e => eligible e)).Nodup := List.Nodup.filter _ hnodup
    rw [hc']
    exact List.nodup_iff_count_le_one.mp this ep
  · exact sampleRun_lookup_iff fuel oc eps initSampleState hnd
      (fun e _ => rfl)

/-- Witness for C8: the contract applied to two endpoints with distinct
function names, one succeeding and one answering 500. -/
theorem C8_sampler_contract_witness :
    ([epFoo1, epRestBarGet].map (fun e => e.FuncName)).Nodup
    ∧ (sampleRun 3 ocSplit [epFoo1, epRestBarGet]).called
        = [epFoo1, epRestBarGet].filter (fun e => eligible e) :=
  ⟨by decide,
    (C8_sampler_contract 3 ocSplit [epFoo1, epRestBarGet] (by decide)).1⟩

/-! ### Claim C9 -/

theorem keysT_insertTbl : ∀ (tbl : Tbl) (n d k' : String),
    k' ∈ keysT tbl → k' ∈ keysT (insertTbl n d tbl) := by
  intro tbl
  induction tbl with
  | nil => intro n d k' h; exact absurd h (by simp [keysT])
  | cons e t ih =>
    intro n d k' h
    cases e with
    | mk m x =>
      by_cases hm : m = n
      · subst hm
        have hins : insertTbl m d ((m, x) :: t) = (m, d) :: t := by
          simp [insertTbl]
        rw [hins]
        simp only [keysT, List.map_cons, List.mem_cons] at h ⊢
        exact h
      · simp only [keysT, List.map_cons, List.mem_cons] at h
        simp only [insertTbl, if_neg hm, keysT, List.map_cons, List.mem_cons]
        rcases h with h | h
        · exact Or.inl h
        · exact Or.inr (ih n d k' h)

theorem buildFields_preserve (f : Nat)
    (IH : ∀ (name : String) (v : Json) (tbl : Tbl) (k : String),
        k ∉ regNames f name v →
        lookupT (inferGo f name v tbl).2 k = lookupT tbl k) :
    ∀ (name : String) (entries : List (String × Json)) (ks : List String)
      (used : UsedMap) (tbl : Tbl) (k : String),
      k ∉ regFields (regNames f) name entries ks used →
      lookupT (buildFields (inferGo f) name entries ks used tbl).2 k
        = lookupT tbl k := by
  intro name entries ks
  induction ks with
  | nil => intro used tbl k _; rfl
  | cons k0 kt ih =>
    intro used tbl k hk
    simp only [regFields, List.mem_append, not_or] at hk
    show lookupT (buildFields (inferGo f) name entries kt (fieldNameStep used k0).2
        ((inferGo f (name ++ (fieldNameStep used k0).1)
          (lookupJD entries k0) tbl).2)).2 k = lookupT tbl k
    rw [ih _ _ k hk.2, IH _ _ _ _ hk.1]

theorem regObj_cons (rec : RegRec) (name : String) (e : String × Json)
    (es : List (String × Json)) :
    regObj rec name (e :: es)
      = (if allNumericB (sortStrings ((e :: es).map Prod.fst))
            && decide (1 < (sortStrings ((e :: es).map Prod.fst)).length) then
           rec (name ++ "Item")
             (lookupJD (e :: es) (sortStrings ((e :: es).map Prod.fst)).headI)
         else
           regFields rec name (e :: es) (sortStrings ((e :: es).map Prod.fst)) []
             ++ [name]) := rfl

theorem inferGo_preserve : ∀ (f : Nat) (name : String) (v : Json) (tbl : Tbl)
    (k : String), k ∉ regNames f name v →
    lookupT (inferGo f name v tbl).2 k = lookupT tbl k := by
  intro f
  induction f with
  | zero => intro name v tbl k _; rfl
  | succ f IH =>
    intro name v tbl k hk
    cases v with
    | null => rfl
    | bool b => rfl
    | num q => rfl
    | str sv => rfl
    | arr xs =>
      cases xs with
      | nil => rfl
      | cons x xt =>
        have hk' : k ∉ regNames f (name ++ "Item") x := by
          simpa [regNames, regNamesF] using hk
        exact IH (name ++ "Item") x tbl k hk'
    | obj entries =>
      cases entries with
      | nil => rfl
      | cons e es =>
        have hk' : k ∉ regObj (regNames f) name (e :: es) := by
          simpa [regNames, regNamesF] using hk
        rw [inferGo_obj_cons]
        by_cases hb : (allNumericB (sortStrings ((e :: es).map Prod.fst))
            && decide (1 < (sortStrings ((e :: es).map Prod.fst)).length)) = true
        · rw [if_pos hb]
          rw [regObj_cons, if_pos hb] at hk'
          exact IH _ _ _ _ hk'
        · rw [if_neg hb]
          rw [regObj_cons, if_neg hb] at hk'
          simp only [List.mem_append, List.mem_singleton, not_or] at hk'
          show lookupT (insertTbl name _
              (buildFields (inferGo f) name (e :: es)
                (sortStrings ((e :: es).map Prod.fst)) [] tbl).2) k
            = lookupT tbl k
          rw [lookupT_insertTbl_ne _ _ _ _ hk'.2,
            buildFields_preserve f IH name (e :: es) _ [] tbl k hk'.1]

theorem buildFields_keys_mono (f : Nat)
    (IH : ∀ (name : String) (v : Json) (tbl : Tbl) (k' : String),
        k' ∈ keysT tbl → k' ∈ keysT (inferGo f name v tbl).2) :
    ∀ (name : String) (entries : List (String × Json)) (ks : List String)
      (used : UsedMap) (tbl : Tbl) (k' : String),
      k' ∈ keysT tbl →
      k' ∈ keysT (buildFields (inferGo f) name entries ks used tbl).2 := by
  intro name entries ks
  induction ks with
  | nil => intro used tbl k' h; exact h
  | cons k0 kt ih =>
    intro used tbl k' h
    show k' ∈ keysT (buildFields (inferGo f) name entries kt
        (fieldNameStep used k0).2
        ((inferGo f (name ++ (fieldNameStep used k0).1)
          (lookupJD entries k0) tbl).2)).2
    exact ih _ _ k' (IH _ _ _ _ h)

theorem inferGo_keys_mono : ∀ (f : Nat) (name : String) (v : Json) (tbl : Tbl)
    (k' : String), k' ∈ keysT tbl → k' ∈ keysT (inferGo f name v tbl).2 := by
  intro f
  induction f with
  | zero => intro name v tbl k' h; exact h
  | succ f IH =>
    intro name v tbl k' h
    cases v with
    | null => exact h
    | bool b => exact h
    | num q => exact h
    | str sv => exact h
    | arr xs =>
      cases xs with
      | nil => exact h
      | cons x xt => exact IH (name ++ "Item") x tbl k' h
    | obj entries =>
      cases entries with
      | nil => exact h
      | cons e es =>
        rw [inferGo_obj_cons]
        by_cases hb : (allNumericB (sortStrings ((e :: es).map Prod.fst))
            && decide (1 < (sortStrings ((e :: es).map Prod.fst)).length)) = true
        · rw [if_pos hb]
          exact IH _ _ _ _ h
        · rw [if_neg hb]
          exact keysT_insertTbl _ _ _ _
            (buildFields_keys_mono f IH name (e :: es) _ [] tbl k' h)

/-- Claim C9 as stated is false: two distinct sampled endpoints can share a
derived function name (`GET /foo` and `GET /foo/` both canonicalize to
`Foo`), so both root inferences use the candidate name `FooResponse`, and
the later endpoint's registration replaces the earlier record definition
in the table. -/
theorem C9_overwrite_counterexample :
    endpointToFuncName "get" "/foo" = endpointToFuncName "get" "/foo/"
    ∧ "FooResponse" ∈ regNames 2 "FooResponse" (Json.obj [("b", Json.str "x")])
    ∧ lookupT (inferGo 2 "FooResponse" (Json.obj [("a", Json.num 1)]) []).2
        "FooResponse" ≠ none
    ∧ lookupT (inferGo 2 "FooResponse" (Json.obj [("b", Json.str "x")])
          (inferGo 2 "FooResponse" (Json.obj [("a", Json.num 1)]) []).2).2
        "FooResponse"
      ≠ lookupT (inferGo 2 "FooResponse" (Json.obj [("a", Json.num 1)]) []).2
        "FooResponse" :=
  ⟨by decide, by decide, by decide, by decide⟩

/-- Claim C9 (amended): the record table accumulates monotonically — a
registered name is never removed, and its definition is never changed by
processing a later value UNLESS that value's inference produces the very
same candidate name (root or nested), in which case the later registration
overwrites the earlier one (last write wins); distinct endpoints can
produce the same root candidate name, so this genuinely occurs (see the
counterexample). -/
theorem C9_table_preservation (f : Nat) (name : String) (v : Json) (tbl : Tbl)
    (k : String) (hk : k ∉ regNames f name v) :
    lookupT (inferGo f name v tbl).2 k = lookupT tbl k
    ∧ ∀ k' ∈ keysT tbl, k' ∈ keysT (inferGo f name v tbl).2 :=
  ⟨inferGo_preserve f name v tbl k hk,
    fun k' h => inferGo_keys_mono f name v tbl k' h⟩

/-- Witness for C9: inferring `{"b":"x"}` under root name `FooResponse`
leaves the unrelated registration `BarResponse` untouched. -/
theorem C9_table_preservation_witness :
    ("BarResponse" ∉ regNames 2 "FooResponse" (Json.obj [("b", Json.str "x")]))
    ∧ lookupT (inferGo 2 "FooResponse" (Json.obj [("b", Json.str "x")])
          [("BarResponse", "d")]).2 "BarResponse"
        = lookupT [("BarResponse", "d")] "BarResponse" :=
  ⟨by decide,
    (C9_table_preservation 2 "FooResponse" (Json.obj [("b", Json.str "x")])
      [("BarResponse", "d")] "BarResponse" (by decide)).1⟩

/-! ### Claim C10 -/

theorem filter_path_drop_query : ∀ (l : List SwaggerParam),
    (l.filter (fun p => decide (p.In ≠ "query"))).filter
        (fun p => decide (p.In = "path"))
      = l.filter (fun p => decide (p.In = "path")) := by
  intro l
  induction l with
  | nil => rfl
  | cons p t ih =>
    by_cases hq : p.In = "query"
    · have hp : ¬ p.In = "path" := by rw [hq]; decide
      rw [List.filter_cons_of_neg (by simp [hq]),
        List.filter_cons_of_neg (by simp [hp])]
      exact ih
    · by_cases hp : p.In = "path"
      · rw [List.filter_cons_of_pos (by simp [hq]),
          List.filter_cons_of_pos (by simp [hp]),
          List.filter_cons_of_pos (by simp [hp]), ih]
      · rw [List.filter_cons_of_pos (by simp [hq]),
          List.filter_cons_of_neg (by simp [hp]),
          List.filter_cons_of_neg (by simp [hp])]
        exact ih

theorem any_body_drop_query : ∀ (l : List SwaggerParam),
    (l.filter (fun p => decide (p.In ≠ "query"))).any
        (fun p => decide (p.In = "body"))
      = l.any (fun p => decide (p.In = "body")) := by
  intro l
  induction l with
  | nil => rfl
  | cons p t ih =>
    by_cases hq : p.In = "query"
    · have hb : ¬ p.In = "body" := by rw [hq]; decide
      rw [List.filter_cons_of_neg (by simp [hq]), List.any_cons, ih]
      simp [hb]
    · rw [List.filter_cons_of_pos (by simp [hq]), List.any_cons, List.any_cons, ih]

/-- Claim C10: the generated operation accepts one signature input per
path parameter, one per query parameter, and one body input when a body
parameter is declared — but the emitted request (method, path-construction
expression, body argument of `doRequest`) is built from the path template
and the path parameters alone: removing all query parameters from the
endpoint leaves the request construction unchanged, so query values are
never transmitted. -/
theorem C10_query_params_unsent (ep : Endpoint) :
    (sigParams ep).length
      = (ep.Params.filter (fun p => decide (p.In = "path"))).length
        + (ep.Params.filter (fun p => decide (p.In = "query"))).length
        + (if ep.Params.any (fun p => decide (p.In = "body")) then 1 else 0)
    ∧ requestParts ep
      = requestParts
          { ep with Params := ep.Params.filter (fun p => decide (p.In ≠ "query")) } := by
  constructor
  · simp only [sigParams, List.length_append, List.length_map]
    by_cases hb : ep.Params.any (fun p => decide (p.In = "body")) = true
    · simp [hb]
    · simp [Bool.eq_false_iff.mpr hb]
  · simp only [requestParts, pathBuild, pathParamNames, bodyArg]
    simp only [filter_path_drop_query, any_body_drop_query]

/-! ### Character-level lemmas for the naming engine -/

theorem charLe_iff (a b : Char) : a ≤ b ↔ a.toNat ≤ b.toNat := Iff.rfl

theorem toNat_ofNat_valid (n : Nat) (h : n.isValidChar) :
    (Char.ofNat n).toNat = n := by
  simp [Char.ofNat, h, Char.ofNatAux, Char.toNat, UInt32.toNat,
    BitVec.toNat_ofNatLt]

theorem isAlnumCh_iff (c : Char) : isAlnumCh c = true ↔
    ((97 ≤ c.toNat ∧ c.toNat ≤ 122) ∨ (65 ≤ c.toNat ∧ c.toNat ≤ 90)
      ∨ (48 ≤ c.toNat ∧ c.toNat ≤ 57)) := by
  have h1 : ('a' : Char).toNat = 97 := rfl
  have h2 : ('z' : Char).toNat = 122 := rfl
  have h3 : ('A' : Char).toNat = 65 := rfl
  have h4 : ('Z' : Char).toNat = 90 := rfl
  have h5 : ('0' : Char).toNat = 48 := rfl
  have h6 : ('9' : Char).toNat = 57 := rfl
  simp [isAlnumCh, Bool.or_eq_true, Bool.and_eq_true, decide_eq_true_eq,
    charLe_iff, h1, h2, h3, h4, h5, h6, or_assoc]

theorem isAsciiLetter_iff (c : Char) : isAsciiLetter c = true ↔
    ((97 ≤ c.toNat ∧ c.toNat ≤ 122) ∨ (65 ≤ c.toNat ∧ c.toNat ≤ 90)) := by
  have h1 : ('a' : Char).toNat = 97 := rfl
  have h2 : ('z' : Char).toNat = 122 := rfl
  have h3 : ('A' : Char).toNat = 65 := rfl
  have h4 : ('Z' : Char).toNat = 90 := rfl
  simp [isAsciiLetter, isLowerCh, isUpperCh, Bool.or_eq_true, Bool.and_eq_true,
    decide_eq_true_eq, charLe_iff, h1, h2, h3, h4]

theorem isUpperCh_iff (c : Char) : isUpperCh c = true ↔
    (65 ≤ c.toNat ∧ c.toNat ≤ 90) := by
  have h3 : ('A' : Char).toNat = 65 := rfl
  have h4 : ('Z' : Char).toNat = 90 := rfl
  simp [isUpperCh, Bool.and_eq_true, decide_eq_true_eq, charLe_iff, h3, h4]

theorem toUpper_toNat (c : Char) : (Char.toUpper c).toNat
    = if 97 ≤ c.toNat ∧ c.toNat ≤ 122 then c.toNat - 32 else c.toNat := by
  unfold Char.toUpper
  by_cases h : 97 ≤ c.toNat ∧ c.toNat ≤ 122
  · rw [if_pos h, if_pos ⟨h.1, h.2⟩]
    exact toNat_ofNat_valid _ (Or.inl (by omega))
  · rw [if_neg h, if_neg (fun hx => h ⟨hx.1, hx.2⟩)]

theorem toLower_toNat (c : Char) : (Char.toLower c).toNat
    = if 65 ≤ c.toNat ∧ c.toNat ≤ 90 then c.toNat + 32 else c.toNat := by
  unfold Char.toLower
  by_cases h : 65 ≤ c.toNat ∧ c.toNat ≤ 90
  · rw [if_pos h, if_pos ⟨h.1, h.2⟩]
    exact toNat_ofNat_valid _ (Or.inl (by omega))
  · rw [if_neg h, if_neg (fun hx => h ⟨hx.1, hx.2⟩)]

theorem isAlnumCh_toUpper (c : Char) (h : isAlnumCh c = true) :
    isAlnumCh c.toUpper = true := by
  rw [isAlnumCh_iff] at h ⊢
  rw [toUpper_toNat]
  by_cases h2 : 97 ≤ c.toNat ∧ c.toNat ≤ 122
  · rw [if_pos h2]
    omega
  · rw [if_neg h2]
    omega

theorem isAlnumCh_toLower (c : Char) (h : isAlnumCh c = true) :
    isAlnumCh c.toLower = true := by
  rw [isAlnumCh_iff] at h ⊢
  rw [toLower_toNat]
  by_cases h2 : 65 ≤ c.toNat ∧ c.toNat ≤ 90
  · rw [if_pos h2]
    omega
  · rw [if_neg h2]
    omega

theorem isAsciiLetter_toUpper (c : Char) (h : isAsciiLetter c = true) :
    isAsciiLetter (Char.toUpper c) = true := by
  rw [isAsciiLetter_iff] at h ⊢
  rw [toUpper_toNat]
  by_cases h2 : 97 ≤ c.toNat ∧ c.toNat ≤ 122
  · rw [if_pos h2]
    omega
  · rw [if_neg h2]
    omega

theorem isAsciiLetter_toLower (c : Char) (h : isAsciiLetter c = true) :
    isAsciiLetter (Char.toLower c) = true := by
  rw [isAsciiLetter_iff] at h ⊢
  rw [toLower_toNat]
  by_cases h2 : 65 ≤ c.toNat ∧ c.toNat ≤ 90
  · rw [if_pos h2]
    omega
  · rw [if_neg h2]
    omega

theorem isUpperCh_toUpper (c : Char) (h : isAsciiLetter c = true) :
    isUpperCh (Char.toUpper c) = true := by
  rw [isAsciiLetter_iff] at h
  rw [isUpperCh_iff, toUpper_toNat]
  by_cases h2 : 97 ≤ c.toNat ∧ c.toNat ≤ 122
  · rw [if_pos h2]
    omega
  · rw [if_neg h2]
    omega

/-! ### Structural lemmas for the naming engine -/

theorem splitNonAlnum_ne_nil : ∀ (s : List Char),
    ∃ h t, splitNonAlnum s = h :: t := by
  intro s
  induction s with
  | nil => exact ⟨[], [], rfl⟩
  | cons c cs ih =>
    obtain ⟨h0, t0, heq⟩ := ih
    by_cases hc : isAlnumCh c = true
    · refine ⟨c :: h0, t0, ?_⟩
      show splitStep c (splitNonAlnum cs) = _
      rw [heq]
      simp [splitStep, hc]
    · refine ⟨[], splitNonAlnum cs, ?_⟩
      show splitStep c (splitNonAlnum cs) = _
      simp [splitStep, hc]

theorem splitNonAlnum_alnum : ∀ (s : List Char),
    ∀ p ∈ splitNonAlnum s, ∀ c ∈ p, isAlnumCh c = true := by
  intro s
  induction s with
  | nil =>
    intro p hp c hc
    simp only [splitNonAlnum, List.foldr_nil, List.mem_singleton] at hp
    subst hp
    simp at hc
  | cons a t ih =>
    intro p hp c hc
    rw [show splitNonAlnum (a :: t) = splitStep a (splitNonAlnum t) from rfl] at hp
    by_cases ha : isAlnumCh a = true
    · obtain ⟨h0, t0, heq⟩ := splitNonAlnum_ne_nil t
      rw [heq] at hp
      simp only [splitStep, ha, if_true] at hp
      rcases List.mem_cons.mp hp with h1 | h1
      · subst h1
        rcases List.mem_cons.mp hc with h2 | h2
        · subst h2
          exact ha
        · exact ih h0 (by rw [heq]; exact List.mem_cons_self _ _) c h2
      · exact ih p (by rw [heq]; exact List.mem_cons_of_mem _ h1) c hc
    · simp only [splitStep, ha, Bool.false_eq_true, if_false] at hp
      rcases List.mem_cons.mp hp with h1 | h1
      · subst h1
        simp at hc
      · exact ih p h1 c hc

theorem firstNeHead_splitNonAlnum : ∀ (s : List Char),
    firstNeHead (splitNonAlnum s)
      = (s.dropWhile (fun c => !isAlnumCh c)).head? := by
  intro s
  induction s with
  | nil => rfl
  | cons a t ih =>
    rw [show splitNonAlnum (a :: t) = splitStep a (splitNonAlnum t) from rfl]
    by_cases ha : isAlnumCh a = true
    · obtain ⟨h0, t0, heq⟩ := splitNonAlnum_ne_nil t
      rw [heq]
      simp only [splitStep, ha, if_true]
      rw [List.dropWhile_cons]
      simp [ha, firstNeHead]
    · simp only [splitStep, ha, Bool.false_eq_true, if_false]
      rw [List.dropWhile_cons]
      simp only [ha, Bool.not_false, if_true]
      rw [show firstNeHead ([] :: splitNonAlnum t) = firstNeHead (splitNonAlnum t)
        from rfl]
      exact ih

theorem expPart_alnum (p : List Char)
    (hall : ∀ c ∈ p, isAlnumCh c = true) :
    ∀ c ∈ expPart p, isAlnumCh c = true := by
  intro c hc
  unfold expPart at hc
  by_cases hcond : (p.length ≤ 3 && (goToUpper p == p)) = true
  · rw [if_pos hcond] at hc
    simp only [goToUpper, List.mem_map] at hc
    obtain ⟨d, hd, rfl⟩ := hc
    exact isAlnumCh_toUpper d (hall d hd)
  · rw [if_neg hcond] at hc
    cases p with
    | nil => simp [upperFirst] at hc
    | cons c0 cs =>
      simp only [upperFirst, List.mem_cons] at hc
      rcases hc with h1 | h1
      · subst h1
        exact isAlnumCh_toUpper c0 (hall c0 (List.mem_cons_self _ _))
      · exact hall c (List.mem_cons_of_mem _ h1)

theorem expPart_head (c0 : Char) (rest : List Char) :
    (expPart (c0 :: rest)).head? = some (Char.toUpper c0) := by
  unfold expPart
  by_cases hcond : ((c0 :: rest).length ≤ 3 && (goToUpper (c0 :: rest) == c0 :: rest)) = true
  · rw [if_pos hcond]
    simp [goToUpper]
  · rw [if_neg hcond]
    simp [upperFirst]

theorem expConcat_alnum : ∀ (parts : List (List Char)),
    (∀ p ∈ parts, ∀ c ∈ p, isAlnumCh c = true) →
    ∀ c ∈ expConcat parts, isAlnumCh c = true := by
  intro parts
  induction parts with
  | nil =>
    intro _ c hc
    simp [expConcat] at hc
  | cons p ps ih =>
    intro hall c hc
    simp only [expConcat] at hc
    rcases List.mem_append.mp hc with h1 | h1
    · by_cases hp : p = []
      · rw [if_pos hp] at h1
        simp at h1
      · rw [if_neg hp] at h1
        exact expPart_alnum p (hall p (List.mem_cons_self _ _)) c h1
    · exact ih (fun q hq c' hc' => hall q (List.mem_cons_of_mem _ hq) c' hc') c h1

theorem expConcat_head : ∀ (parts : List (List Char)) (c0 : Char),
    firstNeHead parts = some c0 →
    (expConcat parts).head? = some (Char.toUpper c0) := by
  intro parts
  induction parts with
  | nil =>
    intro c0 h
    exact Option.noConfusion h
  | cons p ps ih =>
    intro c0 h
    cases p with
    | nil =>
      rw [show firstNeHead ([] :: ps) = firstNeHead ps from rfl] at h
      show ((if ([] : List Char) = [] then [] else expPart []) ++ expConcat ps).head?
        = some (Char.toUpper c0)
      rw [if_pos rfl, List.nil_append]
      exact ih c0 h
    | cons c rest =>
      rw [show firstNeHead ((c :: rest) :: ps) = some c from rfl] at h
      obtain rfl : c0 = c := (Option.some.inj h).symm
      show ((if (c0 :: rest : List Char) = [] then [] else expPart (c0 :: rest))
          ++ expConcat ps).head? = some (Char.toUpper c0)
      rw [if_neg (by simp)]
      have hh := expPart_head c0 rest
      cases hx : expPart (c0 :: rest) with
      | nil =>
        rw [hx] at hh
        exact Option.noConfusion hh
      | cons x xs =>
        rw [hx] at hh
        rw [List.cons_append]
        simpa using hh

theorem lcParts_alnum : ∀ (parts : List (List Char)) (i : Nat),
    (∀ p ∈ parts, ∀ c ∈ p, isAlnumCh c = true) →
    ∀ c ∈ lcParts i parts, isAlnumCh c = true := by
  intro parts
  induction parts with
  | nil =>
    intro i _ c hc
    simp [lcParts] at hc
  | cons p ps ih =>
    intro i hall c hc
    simp only [lcParts] at hc
    rcases List.mem_append.mp hc with h1 | h1
    · by_cases hp : p = []
      · rw [if_pos hp] at h1
        simp at h1
      · rw [if_neg hp] at h1
        by_cases hi : i = 0
        · rw [if_pos hi] at h1
          cases p with
          | nil => simp [lowerFirst] at h1
          | cons c0 cs =>
            simp only [lowerFirst, List.mem_cons] at h1
            rcases h1 with h2 | h2
            · subst h2
              exact isAlnumCh_toLower c0 (hall _ (List.mem_cons_self _ _) c0
                (List.mem_cons_self _ _))
            · exact hall _ (List.mem_cons_self _ _) c (List.mem_cons_of_mem _ h2)
        · rw [if_neg hi] at h1
          cases p with
          | nil => simp [upperFirst] at h1
          | cons c0 cs =>
            simp only [upperFirst, List.mem_cons] at h1
            rcases h1 with h2 | h2
            · subst h2
              exact isAlnumCh_toUpper c0 (hall _ (List.mem_cons_self _ _) c0
                (List.mem_cons_self _ _))
            · exact hall _ (List.mem_cons_self _ _) c (List.mem_cons_of_mem _ h2)
    · exact ih (i + 1) (fun q hq c' hc' => hall q (List.mem_cons_of_mem _ hq) c' hc') c h1

theorem lcParts_head : ∀ (parts : List (List Char)) (i : Nat) (c0 : Char),
    firstNeHead parts = some c0 →
    ((lcParts i parts).head? = some (Char.toLower c0)
      ∨ (lcParts i parts).head? = some (Char.toUpper c0)) := by
  intro parts
  induction parts with
  | nil =>
    intro i c0 h
    exact Option.noConfusion h
  | cons p ps ih =>
    intro i c0 h
    cases p with
    | nil =>
      rw [show firstNeHead ([] :: ps) = firstNeHead ps from rfl] at h
      show ((if ([] : List Char) = [] then [] else _) ++ lcParts (i + 1) ps).head?
          = _ ∨ _
      rw [if_pos rfl, List.nil_append]
      exact ih (i + 1) c0 h
    | cons c rest =>
      rw [show firstNeHead ((c :: rest) :: ps) = some c from rfl] at h
      obtain rfl : c0 = c := (Option.some.inj h).symm
      by_cases hi : i = 0
      · left
        show ((if (c0 :: rest : List Char) = [] then []
            else if i = 0 then lowerFirst (c0 :: rest) else upperFirst (c0 :: rest))
            ++ lcParts (i + 1) ps).head? = _
        rw [if_neg (by simp), if_pos hi]
        simp [lowerFirst]
      · right
        show ((if (c0 :: rest : List Char) = [] then []
            else if i = 0 then lowerFirst (c0 :: rest) else upperFirst (c0 :: rest))
            ++ lcParts (i + 1) ps).head? = _
        rw [if_neg (by simp), if_neg hi]
        simp [upperFirst]

/-! ### Claim C4 -/

theorem isGoIdentCharsB_of (l : List Char) (c : Char)
    (hh : l.head? = some c) (hc : isAsciiLetter c = true)
    (hall : ∀ d ∈ l, isAlnumCh d = true) : isGoIdentCharsB l = true := by
  cases l with
  | nil => exact Option.noConfusion hh
  | cons x xs =>
    have hx : x = c := Option.some.inj hh
    show (isAsciiLetter x && xs.all isAlnumCh) = true
    rw [hx, Bool.and_eq_true]
    exact ⟨hc, List.all_eq_true.mpr
      (fun d hd => hall d (List.mem_cons_of_mem _ hd))⟩

theorem isGoIdent_append_Param (t : String)
    (ht : isGoIdentCharsB t.data = true) :
    isGoIdentCharsB ((t ++ "Param").data) = true := by
  rw [String.data_append]
  cases hd : t.data with
  | nil =>
    rw [hd] at ht
    exact absurd ht (by decide)
  | cons c cs =>
    rw [hd] at ht
    rw [List.cons_append]
    show (isAsciiLetter c && (cs ++ ("Param" : String).data).all isAlnumCh) = true
    have ht' : (isAsciiLetter c && cs.all isAlnumCh) = true := ht
    rw [Bool.and_eq_true] at ht' ⊢
    refine ⟨ht'.1, ?_⟩
    rw [List.all_append, Bool.and_eq_true]
    exact ⟨ht'.2, by decide⟩

theorem notKeyword_of_upper (t : String) (c : Char) (cs : List Char)
    (hd : t.data = c :: cs) (hc : isUpperCh c = true) : t ∉ goKeywords := by
  intro hmem
  have hall : ∀ u ∈ goKeywords, headNotUpperB u = true := by decide
  have ht := hall t hmem
  simp only [headNotUpperB, hd] at ht
  rw [hc] at ht
  exact Bool.noConfusion ht

theorem toLowerCamel_not_kw8 (s : String) : toLowerCamel s ∉ kw8 := by
  simp only [toLowerCamel]
  by_cases hk : toLowerCamelCore s ∈ kw8
  · rw [if_pos hk]
    intro hmem
    have hbound : ∀ t ∈ kw8, 3 ≤ t.length ∧ t.length ≤ 7 := by decide
    have hlen1 : 3 ≤ (toLowerCamelCore s).length := (hbound _ hk).1
    have hlen2 : (toLowerCamelCore s ++ "Param").length ≤ 7 := (hbound _ hmem).2
    rw [String.length_append] at hlen2
    have hP : ("Param" : String).length = 5 := by decide
    omega
  · rw [if_neg hk]
    exact hk

/-- Claim C4 is refuted: the lower-camel variant applied to the key `2nd`
returns `2nd`, an identifier starting with a digit, and applied to `for`
returns the reserved word `for` unchanged, because the keyword switch
handles only eight of the 25 Go keywords. -/
theorem C4_invalid_identifier_counterexample :
    toLowerCamel "2nd" = "2nd"
    ∧ (toLowerCamel "2nd").data.head? = some '2'
    ∧ isDigitCh '2' = true
    ∧ toLowerCamel "for" = "for"
    ∧ "for" ∈ goKeywords
    ∧ "for" ∉ kw8 :=
  ⟨by decide, by decide, by decide, by decide, by decide, by decide⟩

/-- Claim C4 (amended): for every raw input whose first alphanumeric
character is an ASCII letter, `toExportedName` and `toLowerCamel` produce
syntactically well-formed identifiers (non-empty, letter-initial, ASCII
alphanumeric throughout); `toExportedName` never produces any of the 25 Go
reserved words (its first character is upper-case); `toLowerCamel` never
produces any of the eight keywords its switch handles, appending the fixed
suffix `Param` whenever its pre-switch result is one of them.  For inputs
whose first alphanumeric character is a digit the lower-camel result can
start with a digit, and reserved words outside the eight handled ones are
returned unchanged (see the counterexample). -/
theorem C4_identifier_validity (s : String)
    (h : firstSegLetterB s.data = true) :
    isGoIdentCharsB (toExportedName s).data = true
    ∧ isGoIdentCharsB (toLowerCamel s).data = true
    ∧ toExportedName s ∉ goKeywords
    ∧ toLowerCamel s ∉ kw8
    ∧ (toLowerCamelCore s ∈ kw8 →
        toLowerCamel s = toLowerCamelCore s ++ "Param") := by
  cases hd : s.data.dropWhile (fun c => !isAlnumCh c) with
  | nil =>
    simp only [firstSegLetterB, hd] at h
    exact Bool.noConfusion h
  | cons c0 rest =>
    simp only [firstSegLetterB, hd] at h
    have hfirst : firstNeHead (splitNonAlnum s.data) = some c0 := by
      rw [firstNeHead_splitNonAlnum, hd]
      rfl
    have halnumParts := splitNonAlnum_alnum s.data
    have hexp_head := expConcat_head _ c0 hfirst
    have hexp_data : (toExportedName s).data
        = expConcat (splitNonAlnum s.data) := by
      simp only [toExportedName, toExportedNameL]
      cases hx : expConcat (splitNonAlnum s.data) with
      | nil =>
        rw [hx] at hexp_head
        exact Option.noConfusion hexp_head
      | cons x xs =>
        rw [if_neg (by simp)]
    have hexp_ident : isGoIdentCharsB (toExportedName s).data = true := by
      rw [hexp_data]
      exact isGoIdentCharsB_of _ (Char.toUpper c0) hexp_head
        (isAsciiLetter_toUpper c0 h)
        (expConcat_alnum _ halnumParts)
    have hcore_ident : isGoIdentCharsB (toLowerCamelCore s).data = true := by
      have hcore_data : (toLowerCamelCore s).data
          = lcParts 0 (splitNonAlnum s.data) := rfl
      rw [hcore_data]
      rcases lcParts_head (splitNonAlnum s.data) 0 c0 hfirst with h1 | h1
      · exact isGoIdentCharsB_of _ (Char.toLower c0) h1
          (isAsciiLetter_toLower c0 h) (lcParts_alnum _ 0 halnumParts)
      · exact isGoIdentCharsB_of _ (Char.toUpper c0) h1
          (isAsciiLetter_toUpper c0 h) (lcParts_alnum _ 0 halnumParts)
    refine ⟨hexp_ident, ?_, ?_, toLowerCamel_not_kw8 s, ?_⟩
    · simp only [toLowerCamel]
      by_cases hk : toLowerCamelCore s ∈ kw8
      · rw [if_pos hk]
        exact isGoIdent_append_Param _ hcore_ident
      · rw [if_neg hk]
        exact hcore_ident
    · obtain ⟨x, xs, hx⟩ : ∃ x xs, (toExportedName s).data = x :: xs := by
        rw [hexp_data]
        cases hx : expConcat (splitNonAlnum s.data) with
        | nil =>
          rw [hx] at hexp_head
          exact Option.noConfusion hexp_head
        | cons x xs => exact ⟨x, xs, rfl⟩
      have hxc : x = Char.toUpper c0 := by
        have hh := hexp_head
        rw [← hexp_data, hx] at hh
        exact Option.some.inj hh
      apply notKeyword_of_upper _ x xs hx
      rw [hxc]
      exact isUpperCh_toUpper c0 h
    · intro hk
      simp only [toLowerCamel, if_pos hk]

/-- Witness for C4: the raw key `user_name` starts with a letter; its
normalized forms are well-formed identifiers. -/
theorem C4_identifier_validity_witness :
    firstSegLetterB ("user_name" : String).data = true
    ∧ isGoIdentCharsB (toExportedName "user_name").data = true :=
  ⟨by decide, (C4_identifier_validity "user_name" (by decide)).1⟩
